import Mathlib

/-!
Shallow embedding of the CPM scheduling core of the Project-Course-Sims
repository (src/PP_Sim_App_v1/src/App.tsx and src/PP_Sim_App_v2/public/app.js):
`topoSort`, `computeCPM`, and the constrained-drag propagation routine.

Modelling conventions:
* JavaScript numbers that can arise here are integers or `NaN`; we model a
  possibly-NaN number as `JsNum := Option Int` with `none` standing for `NaN`
  (`Math.max`/`Math.min`/`+`/`-` propagate `NaN`; every comparison with `NaN`
  is false).  `Infinity` can only arise in the second copy of `computeCPM` in
  App.tsx (`Math.max()` of an empty list is `-Infinity`); that copy's
  `projectDuration` is modelled separately by `projectDurationSecondCopy`,
  whose `none` result stands for `-Infinity`.
* A JS object used as a dictionary is modelled as a function
  `String → Option β` (`none` = key absent); assignment is `mupd`.
* The `while (q.length)` loop of `topoSort` and the recursive `propagate`
  are modelled with an explicit fuel parameter; `kahnFuel` is proven large
  enough below (`kahnLoop_fuel_irrelevant` and its consequences), and the
  claims about `propagate` quantify over sufficient fuel.
-/

namespace CPM

/-- A JavaScript number as it arises in the scheduling core: an integer or
`NaN` (`none`). -/
abbrev JsNum := Option Int

/-- Dictionary model for a JS object: `none` = key absent. -/
abbrev JMap := String → Option JsNum

/-- The `minStart` dictionary: its stored values are always plain integers. -/
abbrev MSMap := String → Option Int

/-- Assignment `m[k] = v` on a JS dictionary. -/
def mupd {β : Type} (m : String → Option β) (k : String) (v : β) :
    String → Option β :=
  fun x => if x = k then some v else m x

/-- `Math.max` on two values, `NaN` absorbing. -/
def jMax2 : JsNum → JsNum → JsNum
  | some a, some b => some (max a b)
  | _, _ => none

/-- `Math.min` on two values, `NaN` absorbing. -/
def jMin2 : JsNum → JsNum → JsNum
  | some a, some b => some (min a b)
  | _, _ => none

/-- Addition, `NaN` absorbing. -/
def jAdd : JsNum → JsNum → JsNum
  | some a, some b => some (a + b)
  | _, _ => none

/-- Subtraction, `NaN` absorbing. -/
def jSub : JsNum → JsNum → JsNum
  | some a, some b => some (a - b)
  | _, _ => none

/-- Reading a dictionary entry for use in arithmetic: an absent key gives
`undefined`, which behaves as `NaN` in `Math.max`/`Math.min`/`+`/`-`. -/
def jVal (x : Option JsNum) : JsNum := x.join

/-- A task as in the source: id, display name, integer duration, predecessor
ids.  (The display name is irrelevant to the engine and omitted.) -/
structure Task where
  id : String
  duration : Int
  deps : List String
deriving DecidableEq, Repr

/-- The ids of a task list, in input order. -/
def idsOf (tasks : List Task) : List String := tasks.map (·.id)

/-- The in-degree dictionary built by the first `forEach` of `topoSort`:
`indeg[t.id] = indeg[t.id] ?? 0` followed by one increment per declared
predecessor. -/
def buildIndeg (tasks : List Task) : String → Option Int :=
  tasks.foldl
    (fun m t =>
      let m' := mupd m t.id ((m t.id).getD 0)
      t.deps.foldl (fun m _ => mupd m t.id ((m t.id).getD 0 + 1)) m')
    (fun _ => none)

/-- The adjacency dictionary `graph` of `topoSort` and the identically-built
`succs` dictionary of the backward pass: `graph[d]` lists, in input order and
with multiplicity, the ids of the tasks that declare `d` as a predecessor. -/
def buildGraph (tasks : List Task) : String → List String :=
  tasks.foldl
    (fun g t => t.deps.foldl (fun g d => fun k => if k = d then g d ++ [t.id] else g k) g)
    (fun _ => [])

/-- One pass of the `forEach` body over the out-edges `es` of a dequeued node:
decrement `indeg[v]` and enqueue `v` when it reaches exactly 0.
(An undefined `indeg[v]` would become `NaN` in JS and never compare equal
to 0; it cannot occur because `graph` only holds task ids, all of which the
first loop initialises.  The model's `getD 0 - 1` likewise never re-reaches
0 from an uninitialised key.) -/
def kahnEdges (es : List String) (st : (String → Option Int) × List String) :
    (String → Option Int) × List String :=
  es.foldl
    (fun p v =>
      let n := (p.1 v).getD 0 - 1
      (mupd p.1 v n, if n = 0 then p.2 ++ [v] else p.2))
    st

/-- The `while (q.length)` loop of `topoSort` (Kahn's algorithm), with fuel. -/
def kahnLoop (graph : String → List String) :
    Nat → List String → (String → Option Int) → List String
  | 0, _, _ => []
  | _ + 1, [], _ => []
  | fuel + 1, u :: q, indeg =>
      let p := kahnEdges (graph u) (indeg, q)
      u :: kahnLoop graph fuel p.2 p.1

/-- Fuel that is proven sufficient for `kahnLoop` below: one unit per task
plus one per declared dependency, plus one. -/
def kahnFuel (tasks : List Task) : Nat :=
  tasks.length + (tasks.map (·.deps.length)).sum + 1

/-- The initial FIFO queue: tasks of in-degree 0, in input order. -/
def seedQueue (tasks : List Task) : List String :=
  (tasks.filter (fun t => ((buildIndeg tasks) t.id).getD 0 = 0)).map (·.id)

/-- `topoSort` from the source: Kahn's algorithm with a FIFO queue seeded in
input order.  (The `console.warn` on a short order is irrelevant to the
returned value and omitted.) -/
def topoSort (tasks : List Task) : List String :=
  kahnLoop (buildGraph tasks) (kahnFuel tasks) (seedQueue tasks) (buildIndeg tasks)

/-- `byId` from `computeCPM`: `Object.fromEntries` keeps the last entry for a
repeated key. -/
def byId (tasks : List Task) : String → Option Task :=
  tasks.foldl (fun f t => fun k => if k = t.id then some t else f k) (fun _ => none)

/-- `predEF = preds.length ? Math.max(...preds.map(p => EF[p])) : 0` from the
forward pass. -/
def predEF (ef : JMap) (deps : List String) : JsNum :=
  match deps with
  | [] => some 0
  | d :: ds => (ds.map (fun p => jVal (ef p))).foldl jMax2 (jVal (ef d))

/-- The body of the forward pass for one id of the topological order:
`ES[id] = Math.max(predEF, minStart[id] ?? 0)`, `EF[id] = ES[id] + duration`.
(The `byId` lookup cannot fail because the order only holds task ids.) -/
def fwdStep (byid : String → Option Task) (minStart : MSMap)
    (st : JMap × JMap) (id : String) : JMap × JMap :=
  match byid id with
  | none => st
  | some t =>
    let start := jMax2 (predEF st.2 t.deps) (some ((minStart id).getD 0))
    (mupd st.1 id start, mupd st.2 id (jAdd start (some t.duration)))

/-- The forward pass: fold `fwdStep` over the topological order. -/
def forwardPass (byid : String → Option Task) (minStart : MSMap)
    (order : List String) : JMap × JMap :=
  order.foldl (fwdStep byid minStart) (fun _ => none, fun _ => none)

/-- `Math.max(...Object.values(EF), 0)`: the values of `EF` are exactly its
lookups at the order's ids (the forward pass writes no other key, and
duplicates do not change a maximum). -/
def projectDurationOf (order : List String) (EF : JMap) : JsNum :=
  (order.map (fun id => jVal (EF id))).foldl jMax2 (some 0)

/-- `succs.length === 0 ? projectDuration : Math.min(...succs.map(v => LS[v]))`
from the backward pass. -/
def succLF (ls : JMap) (pd : JsNum) (s : List String) : JsNum :=
  match s with
  | [] => pd
  | v :: vs => (vs.map (fun w => jVal (ls w))).foldl jMin2 (jVal (ls v))

/-- The body of the backward pass for one id of the reversed order:
`LF[id]` as above, `LS[id] = LF[id] - duration`.  State is `(LS, LF)`. -/
def bwdStep (byid : String → Option Task) (succs : String → List String)
    (pd : JsNum) (st : JMap × JMap) (id : String) : JMap × JMap :=
  match byid id with
  | none => st
  | some t =>
    let lf := succLF st.1 pd (succs id)
    (mupd st.1 id (jSub lf (some t.duration)), mupd st.2 id lf)

/-- The backward pass: fold `bwdStep` over the reversed order. -/
def backwardPass (byid : String → Option Task) (succs : String → List String)
    (pd : JsNum) (order : List String) : JMap × JMap :=
  order.reverse.foldl (bwdStep byid succs pd) (fun _ => none, fun _ => none)

/-- The slack/critical loop over all input tasks.  `slack[t.id] = LS - ES`
(NaN when either is absent); `Math.abs(slack) < 1e-9` holds for an
integer-or-NaN slack exactly when the slack is the integer 0.  The critical
set is a JS `Set`, modelled as an insertion-ordered duplicate-free list. -/
def slackCritical (tasks : List Task) (ES LS : JMap) : JMap × List String :=
  tasks.foldl
    (fun st t =>
      let sl := jSub (jVal (LS t.id)) (jVal (ES t.id))
      (mupd st.1 t.id sl,
       if sl = some 0 then
         (if t.id ∈ st.2 then st.2 else st.2 ++ [t.id])
       else st.2))
    (fun _ => none, [])

/-- The engine's output record. -/
structure PassResults where
  ES : JMap
  EF : JMap
  LS : JMap
  LF : JMap
  slack : JMap
  critical : List String
  projectDuration : JsNum

/-- `computeCPM` (the first copy in App.tsx; the v2 copy in app.js is
line-for-line the same modulo `?? 0` vs `|| 0` on the non-negative
`minStart` lookup, which agree on integers). -/
def computeCPM (tasks : List Task) (minStart : MSMap) : PassResults :=
  let order := topoSort tasks
  let byid := byId tasks
  let fwd := forwardPass byid minStart order
  let pd := projectDurationOf order fwd.2
  let succs := buildGraph tasks
  let bwd := backwardPass byid succs pd order
  let sc := slackCritical tasks fwd.1 bwd.1
  { ES := fwd.1, EF := fwd.2, LS := bwd.1, LF := bwd.2,
    slack := sc.1, critical := sc.2, projectDuration := pd }

/-- `projectDuration` as computed by the second copy of `computeCPM` in
App.tsx (line 1197): `Math.max(...Object.values(EF))` with no `0` argument,
so the empty task list yields `Math.max()` = `-Infinity`, modelled as
`none`. -/
def projectDurationSecondCopy (tasks : List Task) (minStart : MSMap) :
    Option JsNum :=
  let order := topoSort tasks
  let fwd := forwardPass (byId tasks) minStart order
  match order.map (fun id => jVal (fwd.2 id)) with
  | [] => none
  | x :: xs => some (xs.foldl jMax2 x)

/-- The empty `minStart` map (the default argument `{}`). -/
def msEmpty : MSMap := fun _ => none

/-! ### Constrained-drag propagation (onMouseMove / propagate in App.tsx) -/

/-- `project.tasks.filter(t => t.deps.includes(u)).map(t => t.id)`. -/
def succsFilter (tasks : List Task) (u : String) : List String :=
  (tasks.filter (fun t => u ∈ t.deps)).map (·.id)

/-- `project.tasks.find(t => t.id === p)`. -/
def findTask (tasks : List Task) (p : String) : Option Task :=
  tasks.find? (fun t => t.id = p)

/-- The conservative earliest-finish estimate used during propagation:
`Math.max(newMinStart[p] ?? computed.ES[p], computed.ES[p]) + duration(p)`.
(A `find` failure would crash in JS; it is modelled as NaN and is
unreachable for ids drawn from the task list.) -/
def consEF (tasks : List Task) (preES : JMap) (m : MSMap) (p : String) : JsNum :=
  let override : JsNum :=
    match m p with
    | some n => some n
    | none => jVal (preES p)
  jAdd (jMax2 override (jVal (preES p))) ((findTask tasks p).map (·.duration))

/-- The body of `propagate(u)`, processing the remaining successor list `l`
of the node whose raise triggered this call.  For each `v`: recompute the
conservative predecessor floor; if it strictly exceeds
`newMinStart[v] ?? computed.ES[v]` (a comparison that is false when either
side is NaN or when the floor is `Math.max()` = `-Infinity` on an empty
`deps`), write it and recurse into `v`'s successors.  Fuel bounds the
recursion depth; `none` = fuel exhausted. -/
def propLoop (tasks : List Task) (preES : JMap) (fuel : Nat) (l : List String)
    (m : MSMap) : Option MSMap :=
  match l with
  | [] => some m
  | v :: rest =>
    let vPreds := match findTask tasks v with | some t => t.deps | none => []
    let fl : Option JsNum :=
      match vPreds.map (consEF tasks preES m) with
      | [] => none
      | x :: xs => some (xs.foldl jMax2 x)
    let cur : JsNum :=
      match m v with
      | some n => some n
      | none => jVal (preES v)
    match fl, cur with
    | some (some n), some c =>
      if c < n then
        if _h : fuel = 0 then none
        else
          match propLoop tasks preES (fuel - 1) (succsFilter tasks v) (mupd m v n) with
          | none => none
          | some m' => propLoop tasks preES fuel rest m'
      else propLoop tasks preES fuel rest m
    | _, _ => propLoop tasks preES fuel rest m
termination_by (fuel, l.length)
decreasing_by
  all_goals simp_wf
  all_goals first
    | exact Prod.Lex.right _ (by omega)
    | exact Prod.Lex.left _ _ (by omega)

/-- `propagate(u)` of App.tsx, acting on a working copy of the minStart map. -/
def propagate (tasks : List Task) (preES : JMap) (fuel : Nat) (m : MSMap)
    (u : String) : Option MSMap :=
  propLoop tasks preES fuel (succsFilter tasks u) m

/-- The drag entry point (the core of `onMouseMove`): clamp the tentative
start `s` below by 0 and by the maximum pre-drag EF of the dragged task's
predecessors, write it into a copy of `minStart`, and propagate.  A NaN
predecessor floor (an unscheduled predecessor) would make JS record a NaN
start; the model returns `none` there. -/
def dragPropagate (tasks : List Task) (pre : PassResults) (minStart : MSMap)
    (fuel : Nat) (id : String) (s : Int) : Option MSMap :=
  let tentative : Int := max 0 s
  let preds := match findTask tasks id with | some t => t.deps | none => []
  let predEF : JsNum :=
    match preds with
    | [] => some 0
    | d :: ds => (ds.map (fun p => jVal (pre.EF p))).foldl jMax2 (jVal (pre.EF d))
  match predEF with
  | some e => propagate tasks pre.ES fuel (mupd minStart id (max tentative e)) id
  | none => none

/-- Instrumented copy of `propLoop` that also counts, per task id, how many
times `propagate` is entered for that id (one count per raise-and-recurse). -/
def propLoopCount (tasks : List Task) (preES : JMap) (fuel : Nat)
    (l : List String) (m : MSMap) (cnt : String → Nat) :
    Option (MSMap × (String → Nat)) :=
  match l with
  | [] => some (m, cnt)
  | v :: rest =>
    let vPreds := match findTask tasks v with | some t => t.deps | none => []
    let fl : Option JsNum :=
      match vPreds.map (consEF tasks preES m) with
      | [] => none
      | x :: xs => some (xs.foldl jMax2 x)
    let cur : JsNum :=
      match m v with
      | some n => some n
      | none => jVal (preES v)
    match fl, cur with
    | some (some n), some c =>
      if c < n then
        if _h : fuel = 0 then none
        else
          match propLoopCount tasks preES (fuel - 1) (succsFilter tasks v) (mupd m v n)
              (fun x => if x = v then cnt v + 1 else cnt x) with
          | none => none
          | some p => propLoopCount tasks preES fuel rest p.1 p.2
      else propLoopCount tasks preES fuel rest m cnt
    | _, _ => propLoopCount tasks preES fuel rest m cnt
termination_by (fuel, l.length)
decreasing_by
  all_goals simp_wf
  all_goals first
    | exact Prod.Lex.right _ (by omega)
    | exact Prod.Lex.left _ _ (by omega)

/-- Visit counts for a whole drag-propagation from `u`. -/
def propagateVisits (tasks : List Task) (preES : JMap) (fuel : Nat) (m : MSMap)
    (u : String) : Option (MSMap × (String → Nat)) :=
  propLoopCount tasks preES fuel (succsFilter tasks u) m (fun _ => 0)

/-- One level of `propLoop` with the next (lower-fuel) level abstracted out,
recursing structurally on the pending list.  `propLoopS` below ties the
levels together by structural recursion on fuel; this reformulation is
kernel-reducible and is proved pointwise equal to `propLoop`, so concrete
runs of the propagation can be evaluated inside proofs. -/
def propInner (tasks : List Task) (preES : JMap)
    (next : Option (List String → MSMap → Option MSMap)) :
    List String → MSMap → Option MSMap
  | [], m => some m
  | v :: rest, m =>
    let vPreds := match findTask tasks v with | some t => t.deps | none => []
    let fl : Option JsNum :=
      match vPreds.map (consEF tasks preES m) with
      | [] => none
      | x :: xs => some (xs.foldl jMax2 x)
    let cur : JsNum :=
      match m v with
      | some n => some n
      | none => jVal (preES v)
    match fl, cur with
    | some (some n), some c =>
      if c < n then
        match next with
        | none => none
        | some f =>
          match f (succsFilter tasks v) (mupd m v n) with
          | none => none
          | some m₁ => propInner tasks preES next rest m₁
      else propInner tasks preES next rest m
    | _, _ => propInner tasks preES next rest m

/-- Structurally recursive reformulation of `propLoop` (see `propInner`). -/
def propLoopS (tasks : List Task) (preES : JMap) :
    Nat → List String → MSMap → Option MSMap
  | 0 => propInner tasks preES none
  | fuel + 1 => propInner tasks preES (some (propLoopS tasks preES fuel))

/-- One level of `propLoopCount` with the next level abstracted out. -/
def propInnerCount (tasks : List Task) (preES : JMap)
    (next : Option (List String → MSMap → (String → Nat) →
      Option (MSMap × (String → Nat)))) :
    List String → MSMap → (String → Nat) → Option (MSMap × (String → Nat))
  | [], m, cnt => some (m, cnt)
  | v :: rest, m, cnt =>
    let vPreds := match findTask tasks v with | some t => t.deps | none => []
    let fl : Option JsNum :=
      match vPreds.map (consEF tasks preES m) with
      | [] => none
      | x :: xs => some (xs.foldl jMax2 x)
    let cur : JsNum :=
      match m v with
      | some n => some n
      | none => jVal (preES v)
    match fl, cur with
    | some (some n), some c =>
      if c < n then
        match next with
        | none => none
        | some f =>
          match f (succsFilter tasks v) (mupd m v n)
              (fun x => if x = v then cnt v + 1 else cnt x) with
          | none => none
          | some p => propInnerCount tasks preES next rest p.1 p.2
      else propInnerCount tasks preES next rest m cnt
    | _, _ => propInnerCount tasks preES next rest m cnt

/-- Structurally recursive reformulation of `propLoopCount`. -/
def propLoopCountS (tasks : List Task) (preES : JMap) :
    Nat → List String → MSMap → (String → Nat) →
      Option (MSMap × (String → Nat))
  | 0 => propInnerCount tasks preES none
  | fuel + 1 => propInnerCount tasks preES (some (propLoopCountS tasks preES fuel))


/-! ### Named instances and auxiliary predicates used by the verification -/

/-- `a` appears strictly before `b` in `l`: every way of splitting `l` at an
occurrence of `b` puts `a` in the left part. -/
def Before (l : List String) (a b : String) : Prop :=
  ∀ pre suf, l = pre ++ b :: suf → a ∈ pre

/-- Task ids are unique within a project (spec §3). -/
abbrev UniqueIds (tasks : List Task) : Prop := (idsOf tasks).Nodup

/-- Each task's predecessor collection is a set: no duplicates (spec §3). -/
abbrev DepsNodup (tasks : List Task) : Prop := ∀ t ∈ tasks, t.deps.Nodup

/-- All declared predecessors exist (no dangling ids). -/
abbrev ClosedDeps (tasks : List Task) : Prop :=
  ∀ t ∈ tasks, ∀ d ∈ t.deps, d ∈ idsOf tasks

/-- `r` ranks the dependency graph: every edge increases the rank.  A task
list is acyclic exactly when such a ranking exists. -/
abbrev Ranked (tasks : List Task) (r : String → Nat) : Prop :=
  ∀ t ∈ tasks, ∀ d ∈ t.deps, r d < r t.id

/-- Durations are positive integers (spec §3: duration ≥ 1). -/
abbrev PosDur (tasks : List Task) : Prop := ∀ t ∈ tasks, 1 ≤ t.duration

/-- All minStart overrides are non-negative. -/
def NonnegMS (ms : MSMap) : Prop := ∀ id n, ms id = some n → 0 ≤ n

/-- The fold body of `buildIndeg`. -/
def indegStep (m : String → Option Int) (t : Task) : String → Option Int :=
  t.deps.foldl (fun m _ => mupd m t.id ((m t.id).getD 0 + 1))
    (mupd m t.id ((m t.id).getD 0))

/-- Integer read-off of a schedule entry (0 when absent or NaN); every use
in a claim statement is paired with an explicit presence assertion. -/
def getNum (x : Option JsNum) : Int := (jVal x).getD 0

/-- The forward-pass invariant carried along a prefix of the order: every
processed id has present integer ES and EF entries, EF = ES + duration, its
deps lie in the processed prefix, and ES is exactly
`max(0, max over deps of EF, minStart ?? 0)`. -/
def FwdInv (tasks : List Task) (ms : MSMap) (pre : List String)
    (st : JMap × JMap) : Prop :=
  ∀ id ∈ pre, ∃ t es, byId tasks id = some t ∧ t ∈ tasks ∧ t.id = id ∧
    (∀ d ∈ t.deps, d ∈ pre) ∧
    st.1 id = some (some es) ∧
    st.2 id = some (some (es + t.duration)) ∧
    es = max ((t.deps.map (fun d => getNum (st.2 d))).foldl max 0)
      ((ms id).getD 0)

/-- The backward-pass invariant along a prefix of the reversed order: every
processed id has present integer LF and LS entries with LS = LF − duration,
its successors lie in the processed prefix, LF is the project duration for
sink tasks and the minimum successor LS otherwise, LF ≤ projectDuration, and
EF ≤ LF. -/
def BwdInv (tasks : List Task) (ef : JMap) (pdv : Int) (preR : List String)
    (st : JMap × JMap) : Prop :=
  ∀ id ∈ preR, ∃ t lf, byId tasks id = some t ∧ t ∈ tasks ∧ t.id = id ∧
    (∀ w ∈ buildGraph tasks id, w ∈ preR) ∧
    st.2 id = some (some lf) ∧
    st.1 id = some (some (lf - t.duration)) ∧
    (buildGraph tasks id = [] → lf = pdv) ∧
    (∀ w ws, buildGraph tasks id = w :: ws →
      lf = (ws.map (fun v => getNum (st.1 v))).foldl min (getNum (st.1 w))) ∧
    lf ≤ pdv ∧
    getNum (ef id) ≤ lf

/-- The spec's concrete scenario 1: A(4), B(3,[A]), C(3,[A]), D(5,[B,C]),
E(3,[D]). -/
def scenario1 : List Task :=
  [⟨"A", 4, []⟩, ⟨"B", 3, ["A"]⟩, ⟨"C", 3, ["A"]⟩, ⟨"D", 5, ["B", "C"]⟩,
   ⟨"E", 3, ["D"]⟩]

/-- A topological ranking of scenario 1. -/
def rank1 : String → Nat :=
  fun id => if id = "A" then 0 else if id = "B" then 1 else if id = "C" then 1
    else if id = "D" then 2 else 3

/-- The largest rank of any task id. -/
def maxRank (tasks : List Task) (r : String → Nat) : Nat :=
  (tasks.map (fun t => r t.id)).foldl max 0

/-- A 7-task acyclic network on which drag propagation visits a task more
than 7 times: two diamond stages double the number of re-raises, so after
dragging `u` to 20 the task `r` is re-entered 8 times. -/
def gadget : List Task :=
  [⟨"u", 1, []⟩, ⟨"p", 1, ["u", "a"]⟩, ⟨"a", 4, ["u"]⟩, ⟨"q", 1, ["p", "b"]⟩,
   ⟨"b", 2, ["p"]⟩, ⟨"r", 1, ["q", "c"]⟩, ⟨"c", 1, ["q"]⟩]

/-- A ranking of the gadget (every dependency strictly increases it). -/
def c9rank : String → Nat := fun id =>
  if id = "u" then 0 else if id = "a" then 1 else if id = "p" then 2
  else if id = "b" then 3 else if id = "q" then 4 else if id = "c" then 5
  else if id = "r" then 6 else 7

/-- The earliest starts `computeCPM` assigns to the gadget (checked against
the engine pointwise in `claim_C9_counterexample`). -/
def gadgetES : JMap := fun id =>
  if id = "u" then some (some 0) else if id = "p" then some (some 5)
  else if id = "a" then some (some 1) else if id = "q" then some (some 8)
  else if id = "b" then some (some 6) else if id = "r" then some (some 10)
  else if id = "c" then some (some 9) else none

def c9m0 : MSMap := mupd msEmpty "u" 20

def c9c0 : String → Nat := fun _ => 0

def c9m1 : MSMap := mupd c9m0 "p" 21

def c9m2 : MSMap := mupd c9m1 "q" 22

def c9m3 : MSMap := mupd c9m2 "r" 23

def c9m4 : MSMap := mupd c9m3 "c" 23

def c9m5 : MSMap := mupd c9m4 "r" 24

def c9m6 : MSMap := mupd c9m5 "b" 22

def c9m7 : MSMap := mupd c9m6 "q" 24

def c9m8 : MSMap := mupd c9m7 "r" 25

def c9m9 : MSMap := mupd c9m8 "c" 25

def c9m10 : MSMap := mupd c9m9 "r" 26

def c9m11 : MSMap := mupd c9m10 "a" 21

def c9m12 : MSMap := mupd c9m11 "p" 25

def c9m13 : MSMap := mupd c9m12 "q" 26

def c9m14 : MSMap := mupd c9m13 "r" 27

def c9m15 : MSMap := mupd c9m14 "c" 27

def c9m16 : MSMap := mupd c9m15 "r" 28

def c9m17 : MSMap := mupd c9m16 "b" 26

def c9m18 : MSMap := mupd c9m17 "q" 28

def c9m19 : MSMap := mupd c9m18 "r" 29

def c9m20 : MSMap := mupd c9m19 "c" 29

def c9m21 : MSMap := mupd c9m20 "r" 30

def c9c1 : String → Nat := fun x => if x = "p" then c9c0 "p" + 1 else c9c0 x

def c9c2 : String → Nat := fun x => if x = "q" then c9c1 "q" + 1 else c9c1 x

def c9c3 : String → Nat := fun x => if x = "r" then c9c2 "r" + 1 else c9c2 x

def c9c4 : String → Nat := fun x => if x = "c" then c9c3 "c" + 1 else c9c3 x

def c9c5 : String → Nat := fun x => if x = "r" then c9c4 "r" + 1 else c9c4 x

def c9c6 : String → Nat := fun x => if x = "b" then c9c5 "b" + 1 else c9c5 x

def c9c7 : String → Nat := fun x => if x = "q" then c9c6 "q" + 1 else c9c6 x

def c9c8 : String → Nat := fun x => if x = "r" then c9c7 "r" + 1 else c9c7 x

def c9c9 : String → Nat := fun x => if x = "c" then c9c8 "c" + 1 else c9c8 x

def c9c10 : String → Nat := fun x => if x = "r" then c9c9 "r" + 1 else c9c9 x

def c9c11 : String → Nat := fun x => if x = "a" then c9c10 "a" + 1 else c9c10 x

def c9c12 : String → Nat := fun x => if x = "p" then c9c11 "p" + 1 else c9c11 x

def c9c13 : String → Nat := fun x => if x = "q" then c9c12 "q" + 1 else c9c12 x

def c9c14 : String → Nat := fun x => if x = "r" then c9c13 "r" + 1 else c9c13 x

def c9c15 : String → Nat := fun x => if x = "c" then c9c14 "c" + 1 else c9c14 x

def c9c16 : String → Nat := fun x => if x = "r" then c9c15 "r" + 1 else c9c15 x

def c9c17 : String → Nat := fun x => if x = "b" then c9c16 "b" + 1 else c9c16 x

def c9c18 : String → Nat := fun x => if x = "q" then c9c17 "q" + 1 else c9c17 x

def c9c19 : String → Nat := fun x => if x = "r" then c9c18 "r" + 1 else c9c18 x

def c9c20 : String → Nat := fun x => if x = "c" then c9c19 "c" + 1 else c9c19 x

def c9c21 : String → Nat := fun x => if x = "r" then c9c20 "r" + 1 else c9c20 x

/-- The "current" start value propagation sees for `k`: the override in
`m` if present, else the schedule's ES (read as an integer). -/
def cvVal (preES : JMap) (m : MSMap) (k : String) : Int :=
  match m k with
  | some n => n
  | none => getNum (preES k)

/-- Invariant of the propagation loop relative to the initial working map
`m₀` (the pre-drag minStart with the dragged task `u` pinned): current
values only grow, and every rewritten entry other than `u`'s belongs to a
real task, is at least that task's pre-drag ES, and dominates the
conservative EF (relative to `m₀`) of each of the task's predecessors. -/
def RaiseInv (tasks : List Task) (preES : JMap) (u : String) (m₀ m : MSMap) :
    Prop :=
  (∀ k, cvVal preES m₀ k ≤ cvVal preES m k) ∧
  (∀ k, k ≠ u → (m k = m₀ k ∨ ∃ n t, m k = some n ∧ byId tasks k = some t ∧
    getNum (preES k) ≤ n ∧
    ∀ p ∈ t.deps, ∀ cp, consEF tasks preES m₀ p = some cp → cp ≤ n))

/-- The single-task network of the C6 counterexample. -/
def c6tasks : List Task := [⟨"U", 1, []⟩]

/-- Its minStart map: `U` already overridden to start 5. -/
def c6ms : MSMap := mupd msEmpty "U" 5

end CPM

namespace CPM

@[simp] theorem mupd_same {β : Type} (m : String → Option β) (k : String) (v : β) :
    mupd m k v k = some v := by simp [mupd]

theorem mupd_other {β : Type} (m : String → Option β) {k x : String} (v : β)
    (h : x ≠ k) : mupd m k v x = m x := by simp [mupd, h]


/-! ### Generic helper lemmas -/

/-- Folding `jMax2` over a list of present values stays present and computes
the integer fold of `max`. -/
theorem foldl_jMax2_some (l : List Int) (a : Int) :
    (l.map some).foldl jMax2 (some a) = some (l.foldl max a) := by
  induction l generalizing a with
  | nil => rfl
  | cons x xs ih => simpa [jMax2] using ih (max a x)

/-- Folding `jMin2` over a list of present values stays present and computes
the integer fold of `min`. -/
theorem foldl_jMin2_some (l : List Int) (a : Int) :
    (l.map some).foldl jMin2 (some a) = some (l.foldl min a) := by
  induction l generalizing a with
  | nil => rfl
  | cons x xs ih => simpa [jMin2] using ih (min a x)

theorem le_foldl_max (l : List Int) (a : Int) : a ≤ l.foldl max a := by
  induction l generalizing a with
  | nil => simp
  | cons x xs ih => exact le_trans (le_max_left a x) (ih (max a x))

theorem mem_le_foldl_max (l : List Int) :
    ∀ (a : Int) {x : Int}, x ∈ l → x ≤ l.foldl max a := by
  induction l with
  | nil => intro a x hx; cases hx
  | cons y ys ih =>
    intro a x hx
    rcases List.mem_cons.mp hx with rfl | h
    · exact le_trans (le_max_right a x) (le_foldl_max ys (max a x))
    · exact ih (max a y) h

theorem foldl_max_cases (l : List Int) : ∀ a : Int,
    l.foldl max a = a ∨ l.foldl max a ∈ l := by
  induction l with
  | nil => intro a; simp
  | cons x xs ih =>
    intro a
    simp only [List.foldl_cons]
    rcases ih (max a x) with h | h
    · rw [h]
      rcases max_choice a x with h' | h' <;> rw [h']
      · exact Or.inl rfl
      · exact Or.inr (List.mem_cons_self x xs)
    · exact Or.inr (List.mem_cons_of_mem x h)

theorem foldl_min_le (l : List Int) (a : Int) : l.foldl min a ≤ a := by
  induction l generalizing a with
  | nil => simp
  | cons x xs ih => exact le_trans (ih (min a x)) (min_le_left a x)

theorem foldl_min_le_mem (l : List Int) :
    ∀ (a : Int) {x : Int}, x ∈ l → l.foldl min a ≤ x := by
  induction l with
  | nil => intro a x hx; cases hx
  | cons y ys ih =>
    intro a x hx
    rcases List.mem_cons.mp hx with rfl | h
    · exact le_trans (foldl_min_le ys (min a x)) (min_le_right a x)
    · exact ih (min a y) h

theorem foldl_min_cases (l : List Int) : ∀ a : Int,
    l.foldl min a = a ∨ l.foldl min a ∈ l := by
  induction l with
  | nil => intro a; simp
  | cons x xs ih =>
    intro a
    simp only [List.foldl_cons]
    rcases ih (min a x) with h | h
    · rw [h]
      rcases min_choice a x with h' | h' <;> rw [h']
      · exact Or.inl rfl
      · exact Or.inr (List.mem_cons_self x xs)
    · exact Or.inr (List.mem_cons_of_mem x h)

theorem Before.cons {l : List String} {a b u : String} (h : Before l a b)
    (hub : u ≠ b) : Before (u :: l) a b := by
  intro pre suf hsplit
  cases pre with
  | nil =>
    simp only [List.nil_append, List.cons.injEq] at hsplit
    exact absurd hsplit.1 hub
  | cons p ps =>
    simp only [List.cons_append, List.cons.injEq] at hsplit
    exact List.mem_cons_of_mem p (h ps suf hsplit.2)

/-! ### Wellformedness predicates (the spec's data-model invariants) -/

theorem uniqueIds_inj {tasks : List Task} (hu : UniqueIds tasks)
    {t t' : Task} (ht : t ∈ tasks) (ht' : t' ∈ tasks) (h : t.id = t'.id) :
    t = t' :=
  List.inj_on_of_nodup_map hu ht ht' h

theorem uniqueIds_cons {t : Task} {ts : List Task} (hu : UniqueIds (t :: ts)) :
    t.id ∉ idsOf ts ∧ UniqueIds ts := by
  have := hu
  simp only [UniqueIds, idsOf, List.map_cons, List.nodup_cons] at this
  exact this

/-- Splitting a task list at a member with unique ids. -/
theorem uniqueIds_split {tasks : List Task} (hu : UniqueIds tasks) {t : Task}
    (ht : t ∈ tasks) :
    ∃ l₁ l₂, tasks = l₁ ++ t :: l₂ ∧ t.id ∉ idsOf l₁ ∧ t.id ∉ idsOf l₂ := by
  rcases List.append_of_mem ht with ⟨l₁, l₂, rfl⟩
  have hids := hu
  simp only [UniqueIds, idsOf, List.map_append, List.map_cons] at hids
  rcases List.nodup_append.mp hids with ⟨h1, h2, hdisj⟩
  refine ⟨l₁, l₂, rfl, ?_, ?_⟩
  · intro h
    exact hdisj h (List.mem_cons_self _ _)
  · intro h
    exact (List.nodup_cons.mp h2).1 h

/-! ### Characterization of `buildIndeg`, `buildGraph`, `byId`, `seedQueue` -/

theorem foldl_inc_self (k : String) (l : List String) :
    ∀ (m : String → Option Int) (a : Int),
    (l.foldl (fun m _ => mupd m k ((m k).getD 0 + 1)) (mupd m k a)) k
      = some (a + l.length) := by
  induction l with
  | nil => intro m a; simp
  | cons x xs ih =>
    intro m a
    have step : mupd (mupd m k a) k (((mupd m k a) k).getD 0 + 1)
        = mupd (mupd m k a) k (a + 1) := by
      simp
    simp only [List.foldl_cons, step, ih (mupd m k a) (a + 1), List.length_cons]
    congr 1
    push_cast
    ring

theorem foldl_inc_other (k x : String) (hx : x ≠ k) (l : List String)
    (m : String → Option Int) :
    (l.foldl (fun m _ => mupd m k ((m k).getD 0 + 1)) m) x = m x := by
  induction l generalizing m with
  | nil => rfl
  | cons y ys ih => simp only [List.foldl_cons, ih, mupd_other _ _ hx]

theorem buildIndeg_eq_foldl (tasks : List Task) :
    buildIndeg tasks = tasks.foldl indegStep (fun _ => none) := rfl

theorem indegStep_self (m : String → Option Int) (t : Task) :
    indegStep m t t.id = some ((m t.id).getD 0 + t.deps.length) :=
  foldl_inc_self t.id t.deps m _

theorem indegStep_other (m : String → Option Int) (t : Task) {x : String}
    (hx : x ≠ t.id) : indegStep m t x = m x := by
  simp [indegStep, foldl_inc_other _ _ hx, mupd_other _ _ hx]

theorem buildIndeg_frame (tasks : List Task) (m : String → Option Int)
    {k : String} (hk : k ∉ idsOf tasks) :
    (tasks.foldl indegStep m) k = m k := by
  induction tasks generalizing m with
  | nil => rfl
  | cons t ts ih =>
    have hk1 : k ≠ t.id := by
      intro h; exact hk (by simp [idsOf, h])
    have hk2 : k ∉ idsOf ts := fun h => hk (by simp [idsOf] at h ⊢; exact Or.inr h)
    simp only [List.foldl_cons, ih _ hk2, indegStep_other _ _ hk1]

theorem buildIndeg_none {tasks : List Task} {k : String} (hk : k ∉ idsOf tasks) :
    buildIndeg tasks k = none := by
  rw [buildIndeg_eq_foldl]; exact buildIndeg_frame tasks _ hk

/-- With unique ids, the in-degree of a task is exactly the length of its
`deps`. -/
theorem buildIndeg_eq {tasks : List Task} (hu : UniqueIds tasks) {t : Task}
    (ht : t ∈ tasks) : buildIndeg tasks t.id = some (t.deps.length : Int) := by
  rcases uniqueIds_split hu ht with ⟨l₁, l₂, rfl, h₁, h₂⟩
  rw [buildIndeg_eq_foldl, List.foldl_append, List.foldl_cons,
    buildIndeg_frame _ _ h₂, indegStep_self, buildIndeg_frame _ _ h₁]
  simp

/-- The fold body of `buildGraph` for one task. -/
theorem graphStep_char (t : Task) :
    ∀ (ds : List String) (g : String → List String) (k : String),
      (ds.foldl (fun g d => fun k' => if k' = d then g d ++ [t.id] else g k') g) k
        = g k ++ List.replicate (ds.count k) t.id := by
  intro ds
  induction ds with
  | nil => intro g k; simp
  | cons d rest ih =>
    intro g k
    simp only [List.foldl_cons, ih]
    by_cases hk : k = d
    · subst hk
      simp [List.count_cons, List.replicate_succ]
    · have hc : (d :: rest).count k = rest.count k := by
        rw [List.count_cons]
        simp only [beq_iff_eq]
        have : ¬d = k := fun h => hk h.symm
        simp [this]
      rw [hc]
      simp [hk]

/-- The per-key value of `buildGraph`: for each task, in input order, its id
repeated once per occurrence of `k` among its deps. -/
theorem buildGraph_char (tasks : List Task) :
    ∀ (g : String → List String) (k : String),
      (tasks.foldl
        (fun g t => t.deps.foldl
          (fun g d => fun k' => if k' = d then g d ++ [t.id] else g k') g) g) k
        = g k ++ (tasks.map (fun t => List.replicate (t.deps.count k) t.id)).flatten := by
  induction tasks with
  | nil => intro g k; simp
  | cons t ts ih =>
    intro g k
    simp only [List.foldl_cons, ih, List.map_cons, List.flatten_cons,
      graphStep_char, List.append_assoc]

theorem buildGraph_eq (tasks : List Task) (k : String) :
    buildGraph tasks k
      = (tasks.map (fun t => List.replicate (t.deps.count k) t.id)).flatten := by
  have := buildGraph_char tasks (fun _ => []) k
  simpa [buildGraph] using this

theorem mem_buildGraph_iff {tasks : List Task} {k v : String} :
    v ∈ buildGraph tasks k ↔ ∃ t ∈ tasks, v = t.id ∧ k ∈ t.deps := by
  rw [buildGraph_eq]
  simp only [List.mem_flatten, List.mem_map]
  constructor
  · rintro ⟨l, ⟨t, ht, rfl⟩, hv⟩
    rcases List.eq_of_mem_replicate hv with rfl
    have hne : t.deps.count k ≠ 0 := by
      intro h; rw [h] at hv; simp at hv
    exact ⟨t, ht, rfl, List.count_pos_iff.mp (Nat.pos_of_ne_zero hne)⟩
  · rintro ⟨t, ht, rfl, hk⟩
    refine ⟨List.replicate (t.deps.count k) t.id, ⟨t, ht, rfl⟩, ?_⟩
    have hpos := List.count_pos_iff.mpr hk
    exact List.mem_replicate.mpr ⟨by omega, rfl⟩

theorem mem_buildGraph_ids {tasks : List Task} {k v : String}
    (h : v ∈ buildGraph tasks k) : v ∈ idsOf tasks := by
  rcases mem_buildGraph_iff.mp h with ⟨t, ht, rfl, _⟩
  exact List.mem_map_of_mem _ ht

/-- With unique ids and duplicate-free deps, each out-edge list is
duplicate-free. -/
theorem buildGraph_nodup {tasks : List Task} (hu : UniqueIds tasks)
    (hd : DepsNodup tasks) (k : String) : (buildGraph tasks k).Nodup := by
  induction tasks with
  | nil => simp [buildGraph_eq]
  | cons t ts ih =>
    rcases uniqueIds_cons hu with ⟨htid, hu'⟩
    have hd' : DepsNodup ts := fun t' ht' => hd t' (List.mem_cons_of_mem _ ht')
    rw [buildGraph_eq, List.map_cons, List.flatten_cons]
    refine List.Nodup.append ?_ ?_ ?_
    · have hc : t.deps.count k ≤ 1 :=
        List.nodup_iff_count_le_one.mp (hd t (List.mem_cons_self _ _)) k
      rcases Nat.le_one_iff_eq_zero_or_eq_one.mp hc with h | h <;> rw [h] <;> simp
    · rw [← buildGraph_eq]; exact ih hu' hd'
    · intro x hx hx'
      rcases List.eq_of_mem_replicate hx with rfl
      have hmem : t.id ∈ buildGraph ts k := by
        rw [buildGraph_eq]
        exact hx'
      exact htid (mem_buildGraph_ids hmem)

/-- `byId` frame lemma. -/
theorem byId_frame (tasks : List Task) (f : String → Option Task) {k : String}
    (hk : k ∉ idsOf tasks) :
    (tasks.foldl (fun f t => fun k' => if k' = t.id then some t else f k') f) k
      = f k := by
  induction tasks generalizing f with
  | nil => rfl
  | cons t ts ih =>
    have hk1 : k ≠ t.id := fun h => hk (by simp [idsOf, h])
    have hk2 : k ∉ idsOf ts := fun h => hk (by simp [idsOf] at h ⊢; exact Or.inr h)
    simp only [List.foldl_cons, ih _ hk2, if_neg hk1]

theorem byId_none {tasks : List Task} {k : String} (hk : k ∉ idsOf tasks) :
    byId tasks k = none := byId_frame tasks _ hk

theorem byId_eq_some {tasks : List Task} (hu : UniqueIds tasks) {t : Task}
    (ht : t ∈ tasks) : byId tasks t.id = some t := by
  rcases uniqueIds_split hu ht with ⟨l₁, l₂, h, h₁, h₂⟩
  unfold byId
  rw [h, List.foldl_append, List.foldl_cons, byId_frame _ _ h₂]
  simp

/-- With unique ids, the seed queue is the ids of the tasks with no deps, in
input order. -/
theorem seedQueue_eq {tasks : List Task} (hu : UniqueIds tasks) :
    seedQueue tasks = ((tasks.filter (fun t => t.deps.isEmpty)).map (·.id)) := by
  unfold seedQueue
  congr 1
  apply List.filter_congr
  intro t ht
  rw [buildIndeg_eq hu ht]
  cases h : t.deps
  · simp [h]
  · simp [h]
    omega

theorem Before_cons_head {l : List String} {u b : String} (hub : u ≠ b) :
    Before (u :: l) u b := by
  intro pre suf hsplit
  cases pre with
  | nil =>
    simp only [List.nil_append, List.cons.injEq] at hsplit
    exact absurd hsplit.1 hub
  | cons p ps =>
    simp only [List.cons_append, List.cons.injEq] at hsplit
    exact hsplit.1 ▸ List.mem_cons_self _ _

theorem Before_mem_suffix {l pre suf : List String} {a b : String}
    (h : Before l a b) (hn : l.Nodup) (hsplit : l = pre ++ a :: suf)
    (hb : b ∈ l) (hne : b ≠ a) : b ∈ suf := by
  rw [hsplit] at hb
  rcases List.mem_append.mp hb with hbpre | hbcons
  · rcases List.append_of_mem hbpre with ⟨A, B, rfl⟩
    have hsplit' : l = A ++ b :: (B ++ a :: suf) := by
      rw [hsplit]; simp
    have ha : a ∈ A := h A (B ++ a :: suf) hsplit'
    rw [hsplit] at hn
    rcases List.nodup_append.mp hn with ⟨_, _, hdisj⟩
    exact absurd (List.mem_cons_self a suf)
      (hdisj (by simp [List.mem_append.mpr (Or.inl ha)]))
  · rcases List.mem_cons.mp hbcons with h' | h'
    · exact absurd h' hne
    · exact h'

/-! ### The Kahn loop: edge-processing characterization -/

theorem kahnEdges_frame (es : List String) (st : (String → Option Int) × List String)
    {k : String} (hk : k ∉ es) : (kahnEdges es st).1 k = st.1 k := by
  induction es generalizing st with
  | nil => rfl
  | cons v rest ih =>
    have hkv : k ≠ v := fun h => hk (h ▸ List.mem_cons_self _ _)
    have hk' : k ∉ rest := fun h => hk (List.mem_cons_of_mem _ h)
    show (kahnEdges rest _).1 k = st.1 k
    rw [ih _ hk']
    exact mupd_other _ _ hkv

theorem kahnEdges_decr {es : List String} (hes : es.Nodup)
    (st : (String → Option Int) × List String) {v : String} (hv : v ∈ es) :
    (kahnEdges es st).1 v = some ((st.1 v).getD 0 - 1) := by
  induction es generalizing st with
  | nil => cases hv
  | cons w rest ih =>
    rcases List.nodup_cons.mp hes with ⟨hw, hrest⟩
    rcases List.mem_cons.mp hv with rfl | hv'
    · show (kahnEdges rest _).1 v = _
      rw [kahnEdges_frame _ _ hw]
      simp
    · have hvw : v ≠ w := fun h => hw (h ▸ hv')
      show (kahnEdges rest _).1 v = _
      rw [ih hrest _ hv']
      simp [mupd, hvw]

theorem kahnEdges_queue {es : List String} (hes : es.Nodup)
    (st : (String → Option Int) × List String) :
    (kahnEdges es st).2
      = st.2 ++ es.filter (fun v => (st.1 v).getD 0 = 1) := by
  induction es generalizing st with
  | nil => simp [kahnEdges]
  | cons w rest ih =>
    rcases List.nodup_cons.mp hes with ⟨hw, hrest⟩
    show (kahnEdges rest _).2 = _
    rw [ih hrest]
    have hfil : rest.filter (fun v => ((mupd st.1 w ((st.1 w).getD 0 - 1)) v).getD 0 = 1)
        = rest.filter (fun v => (st.1 v).getD 0 = 1) := by
      apply List.filter_congr
      intro v hv
      have hvw : v ≠ w := fun h => hw (h ▸ hv)
      rw [mupd_other _ _ hvw]
    rw [hfil, List.filter_cons]
    have hcond : ((st.1 w).getD 0 - 1 = 0) ↔ ((st.1 w).getD 0 = 1) := by omega
    by_cases h : (st.1 w).getD 0 = 1
    · simp only [h, if_pos (hcond.mpr h)]
      simp
    · simp only [if_neg (fun hh => h (hcond.mp hh))]
      simp [h]

/-- Removing one occurrence of a queued id from the not-yet-done filter. -/
theorem filter_length_remove {l : List String} (hl : l.Nodup) {u : String}
    (hu_in : u ∈ l) (done : List String) (hu_nd : u ∉ done) :
    (l.filter (fun d => d ∉ done ++ [u])).length + 1
      = (l.filter (fun d => d ∉ done)).length := by
  induction l with
  | nil => cases hu_in
  | cons x rest ih =>
    rcases List.nodup_cons.mp hl with ⟨hx, hrest⟩
    by_cases hxu : x = u
    · subst hxu
      have hfil : rest.filter (fun d => d ∉ done ++ [x])
          = rest.filter (fun d => d ∉ done) := by
        apply List.filter_congr
        intro d hd
        have hdu : d ≠ x := fun h => hx (h ▸ hd)
        simp [hdu]
      rw [List.filter_cons, List.filter_cons, hfil]
      rw [if_neg (by simp), if_pos (by simpa using hu_nd)]
      simp
    · have hu' : u ∈ rest := (List.mem_cons.mp hu_in).resolve_left
        (fun h => hxu h.symm)
      rw [List.filter_cons, List.filter_cons]
      by_cases hc : x ∈ done
      · rw [if_neg (by simp [hc]), if_neg (by simp [hc])]
        exact ih hrest hu'
      · rw [if_pos (by simp [hc, hxu]), if_pos (by simpa using hc)]
        simp only [List.length_cons]
        have := ih hrest hu'
        omega

/-- If a predicate change does not affect a list's members, the filter is
unchanged (pointwise form used for deps avoiding `u`). -/
theorem filter_not_mem_append_of_not_mem {l done : List String} {u : String}
    (hu : u ∉ l) :
    l.filter (fun d => d ∉ done ++ [u]) = l.filter (fun d => d ∉ done) := by
  apply List.filter_congr
  intro d hd
  have hdu : d ≠ u := fun h => hu (h ▸ hd)
  simp [hdu]

/-- The master invariant of the Kahn loop.  Relative to the ids `done`
already output: queue and done hold task ids without repetition, `ind`
holds the count of not-yet-done deps of every task, every task whose deps
are all done is done or queued, queued and done tasks have all deps done.
Conclusions: the extended output is duplicate-free, holds only task ids,
contains every task whose deps it (plus `done`) contains, and lists every
member task after its deps. -/
theorem kahn_invariant (tasks : List Task) (hu : UniqueIds tasks)
    (hd : DepsNodup tasks) :
    ∀ (fuel : Nat) (done q : List String) (ind : String → Option Int),
      (idsOf tasks).length ≤ fuel + done.length →
      (∀ v ∈ q, v ∈ idsOf tasks) →
      (∀ v ∈ done, v ∈ idsOf tasks) →
      (done ++ q).Nodup →
      (∀ t ∈ tasks, ind t.id
        = some ((t.deps.filter (fun d => d ∉ done)).length : Int)) →
      (∀ t ∈ tasks, (∀ d ∈ t.deps, d ∈ done) → t.id ∈ done ∨ t.id ∈ q) →
      (∀ t ∈ tasks, t.id ∈ q → ∀ d ∈ t.deps, d ∈ done) →
      (∀ t ∈ tasks, t.id ∈ done → ∀ d ∈ t.deps, d ∈ done) →
      (done ++ kahnLoop (buildGraph tasks) fuel q ind).Nodup ∧
      (∀ v ∈ kahnLoop (buildGraph tasks) fuel q ind, v ∈ idsOf tasks) ∧
      (∀ t ∈ tasks,
        (∀ d ∈ t.deps, d ∈ done ∨ d ∈ kahnLoop (buildGraph tasks) fuel q ind) →
        t.id ∈ done ∨ t.id ∈ kahnLoop (buildGraph tasks) fuel q ind) ∧
      (∀ t ∈ tasks, t.id ∈ kahnLoop (buildGraph tasks) fuel q ind →
        ∀ d ∈ t.deps,
          d ∈ done ∨ Before (kahnLoop (buildGraph tasks) fuel q ind) d t.id) := by
  intro fuel
  induction fuel with
  | zero =>
    intro done q ind hfuel hq hdone hnodup hind hready hqdeps hdonedeps
    have hout : kahnLoop (buildGraph tasks) 0 q ind = [] := rfl
    rw [hout]
    have hdn : done.Nodup := (List.nodup_append.mp hnodup).1
    have hperm : done.Perm (idsOf tasks) := by
      have hsub : done.Subperm (idsOf tasks) :=
        List.Nodup.subperm hdn (fun v hv => hdone v hv)
      exact hsub.perm_of_length_le (by simpa using hfuel)
    refine ⟨by simpa using hdn, by simp, ?_, by simp⟩
    intro t ht hdeps
    have hdeps' : ∀ d ∈ t.deps, d ∈ done := by
      intro d hdd
      rcases hdeps d hdd with h | h
      · exact h
      · cases h
    rcases hready t ht hdeps' with h | h
    · exact Or.inl h
    · exact Or.inl (hperm.mem_iff.mpr (hq _ h))
  | succ fuel ih =>
    intro done q ind hfuel hq hdone hnodup hind hready hqdeps hdonedeps
    cases q with
    | nil =>
      have hout : kahnLoop (buildGraph tasks) (fuel + 1) [] ind = [] := rfl
      rw [hout]
      have hdn : done.Nodup := (List.nodup_append.mp hnodup).1
      refine ⟨by simpa using hdn, by simp, ?_, by simp⟩
      intro t ht hdeps
      have hdeps' : ∀ d ∈ t.deps, d ∈ done := by
        intro d hdd
        rcases hdeps d hdd with h | h
        · exact h
        · cases h
      rcases hready t ht hdeps' with h | h
      · exact Or.inl h
      · cases h
    | cons u q' =>
      have hloop : kahnLoop (buildGraph tasks) (fuel + 1) (u :: q') ind
          = u :: kahnLoop (buildGraph tasks) fuel
              (kahnEdges (buildGraph tasks u) (ind, q')).2
              (kahnEdges (buildGraph tasks u) (ind, q')).1 := rfl
      have hes_nodup : (buildGraph tasks u).Nodup := buildGraph_nodup hu hd u
      have hmem_es : ∀ t ∈ tasks, (t.id ∈ buildGraph tasks u ↔ u ∈ t.deps) := by
        intro t ht
        constructor
        · intro h
          rcases mem_buildGraph_iff.mp h with ⟨t', ht', hid, hdep⟩
          rcases uniqueIds_inj hu ht ht' hid with rfl
          exact hdep
        · intro h
          exact mem_buildGraph_iff.mpr ⟨t, ht, rfl, h⟩
      have hu_ids : u ∈ idsOf tasks := hq u (List.mem_cons_self _ _)
      have hu_not_done : u ∉ done := by
        rcases List.nodup_append.mp hnodup with ⟨_, _, hdisj⟩
        intro h
        exact hdisj h (List.mem_cons_self _ _)
      have hq'' := kahnEdges_queue hes_nodup (ind, q')
      -- facts about the newly enqueued ids
      have hΔ_es : ∀ v ∈ (buildGraph tasks u).filter
          (fun v => (ind v).getD 0 = 1), v ∈ buildGraph tasks u :=
        fun v hv => List.mem_of_mem_filter hv
      have hΔ_char : ∀ t ∈ tasks,
          t.id ∈ (buildGraph tasks u).filter (fun v => (ind v).getD 0 = 1) →
          u ∈ t.deps ∧ (t.deps.filter (fun d => d ∉ done)).length = 1 := by
        intro t ht hv
        refine ⟨(hmem_es t ht).mp (hΔ_es _ hv), ?_⟩
        have h2 := List.of_mem_filter hv
        rw [hind t ht] at h2
        simp only [Option.getD_some, decide_eq_true_eq] at h2
        exact_mod_cast h2
      have hΔ_mem : ∀ t ∈ tasks, u ∈ t.deps →
          (t.deps.filter (fun d => d ∉ done)).length = 1 →
          t.id ∈ (buildGraph tasks u).filter (fun v => (ind v).getD 0 = 1) := by
        intro t ht h1 h2
        refine List.mem_filter.mpr ⟨(hmem_es t ht).mpr h1, ?_⟩
        rw [hind t ht]
        simp only [Option.getD_some, decide_eq_true_eq]
        exact_mod_cast h2
      have hΔ_fresh : ∀ v ∈ (buildGraph tasks u).filter
          (fun v => (ind v).getD 0 = 1), v ∉ done ∧ v ∉ u :: q' := by
        intro v hv
        have hvids : v ∈ idsOf tasks := mem_buildGraph_ids (hΔ_es v hv)
        rcases List.mem_map.mp hvids with ⟨t, ht, rfl⟩
        rcases hΔ_char t ht hv with ⟨hudep, hlen1⟩
        constructor
        · intro hvdone
          have hall := hdonedeps t ht hvdone
          have h0 : (t.deps.filter (fun d => d ∉ done)).length = 0 := by
            rw [List.length_eq_zero, List.filter_eq_nil_iff]
            intro d hdd
            simp [hall d hdd]
          omega
        · intro hvq
          have hall := hqdeps t ht hvq
          have h0 : (t.deps.filter (fun d => d ∉ done)).length = 0 := by
            rw [List.length_eq_zero, List.filter_eq_nil_iff]
            intro d hdd
            simp [hall d hdd]
          omega
      -- the invariant for the next iteration
      have hnodup_dq : ((done ++ [u]) ++ q').Nodup := by
        rw [← List.append_cons]
        exact hnodup
      have H1 : (idsOf tasks).length ≤ fuel + (done ++ [u]).length := by
        simp only [List.length_append, List.length_cons, List.length_nil] at hfuel ⊢
        omega
      have H2 : ∀ v ∈ (kahnEdges (buildGraph tasks u) (ind, q')).2,
          v ∈ idsOf tasks := by
        rw [hq'']
        intro v hv
        rcases List.mem_append.mp hv with h | h
        · exact hq v (List.mem_cons_of_mem _ h)
        · exact mem_buildGraph_ids (hΔ_es v h)
      have H3 : ∀ v ∈ done ++ [u], v ∈ idsOf tasks := by
        intro v hv
        rcases List.mem_append.mp hv with h | h
        · exact hdone v h
        · rcases List.mem_singleton.mp h with rfl
          exact hu_ids
      have H4 : ((done ++ [u]) ++ (kahnEdges (buildGraph tasks u) (ind, q')).2).Nodup := by
        rw [hq'', ← List.append_assoc]
        refine List.Nodup.append (by exact hnodup_dq)
          (List.Nodup.filter _ hes_nodup) ?_
        intro v hv hv'
        rcases hΔ_fresh v hv' with ⟨hnd, hnq⟩
        rcases List.mem_append.mp hv with h | h
        · rcases List.mem_append.mp h with h' | h'
          · exact hnd h'
          · rcases List.mem_singleton.mp h' with rfl
            exact hnq (List.mem_cons_self _ _)
        · exact hnq (List.mem_cons_of_mem _ h)
      have H5 : ∀ t ∈ tasks, (kahnEdges (buildGraph tasks u) (ind, q')).1 t.id
          = some ((t.deps.filter (fun d => d ∉ done ++ [u])).length : Int) := by
        intro t ht
        by_cases hud : u ∈ t.deps
        · have hes_t : t.id ∈ buildGraph tasks u := (hmem_es t ht).mpr hud
          rw [kahnEdges_decr hes_nodup _ hes_t]
          show some ((ind t.id).getD 0 - 1) = _
          rw [hind t ht]
          have := filter_length_remove (hd t ht) hud done hu_not_done
          simp only [Option.getD_some, Option.some.injEq]
          omega
        · have hes_t : t.id ∉ buildGraph tasks u :=
            fun h => hud ((hmem_es t ht).mp h)
          rw [kahnEdges_frame _ _ hes_t]
          show ind t.id = _
          rw [hind t ht, filter_not_mem_append_of_not_mem hud]
      have H6 : ∀ t ∈ tasks, (∀ d ∈ t.deps, d ∈ done ++ [u]) →
          t.id ∈ done ++ [u] ∨ t.id ∈ (kahnEdges (buildGraph tasks u) (ind, q')).2 := by
        intro t ht hdeps
        by_cases hud : u ∈ t.deps
        · have h0 : (t.deps.filter (fun d => d ∉ done ++ [u])).length = 0 := by
            rw [List.length_eq_zero, List.filter_eq_nil_iff]
            intro d hdd
            simp [hdeps d hdd]
          have h1 : (t.deps.filter (fun d => d ∉ done)).length = 1 := by
            have := filter_length_remove (hd t ht) hud done hu_not_done
            omega
          refine Or.inr ?_
          rw [hq'']
          exact List.mem_append.mpr (Or.inr (hΔ_mem t ht hud h1))
        · have hdeps' : ∀ d ∈ t.deps, d ∈ done := by
            intro d hdd
            rcases List.mem_append.mp (hdeps d hdd) with h | h
            · exact h
            · rcases List.mem_singleton.mp h with rfl
              exact absurd hdd hud
          rcases hready t ht hdeps' with h | h
          · exact Or.inl (List.mem_append.mpr (Or.inl h))
          · rcases List.mem_cons.mp h with h' | h'
            · exact Or.inl (List.mem_append.mpr (Or.inr (by simp [h'])))
            · refine Or.inr ?_
              rw [hq'']
              exact List.mem_append.mpr (Or.inl h')
      have H7 : ∀ t ∈ tasks, t.id ∈ (kahnEdges (buildGraph tasks u) (ind, q')).2 →
          ∀ d ∈ t.deps, d ∈ done ++ [u] := by
        intro t ht hv
        rw [hq''] at hv
        rcases List.mem_append.mp hv with h | h
        · intro d hdd
          exact List.mem_append.mpr
            (Or.inl (hqdeps t ht (List.mem_cons_of_mem _ h) d hdd))
        · rcases hΔ_char t ht h with ⟨hudep, hlen1⟩
          have h0 : (t.deps.filter (fun d => d ∉ done ++ [u])).length = 0 := by
            have := filter_length_remove (hd t ht) hudep done hu_not_done
            omega
          rw [List.length_eq_zero, List.filter_eq_nil_iff] at h0
          intro d hdd
          have hh := h0 d hdd
          simp only [decide_eq_true_eq, not_not] at hh
          exact hh
      have H8 : ∀ t ∈ tasks, t.id ∈ done ++ [u] → ∀ d ∈ t.deps, d ∈ done ++ [u] := by
        intro t ht hv d hdd
        rcases List.mem_append.mp hv with h | h
        · exact List.mem_append.mpr (Or.inl (hdonedeps t ht h d hdd))
        · rcases List.mem_singleton.mp h with h'
          have : t.id ∈ u :: q' := by rw [h']; exact List.mem_cons_self _ _
          exact List.mem_append.mpr (Or.inl (hqdeps t ht this d hdd))
      obtain ⟨IH1, IH2, IH3, IH4⟩ :=
        ih (done ++ [u]) (kahnEdges (buildGraph tasks u) (ind, q')).2
          (kahnEdges (buildGraph tasks u) (ind, q')).1
          H1 H2 H3 H4 H5 H6 H7 H8
      rw [hloop]
      refine ⟨?_, ?_, ?_, ?_⟩
      · rw [List.append_cons]
        exact IH1
      · intro v hv
        rcases List.mem_cons.mp hv with rfl | h
        · exact hu_ids
        · exact IH2 v h
      · intro t ht hdeps
        have hdeps' : ∀ d ∈ t.deps, d ∈ done ++ [u] ∨
            d ∈ kahnLoop (buildGraph tasks) fuel
              (kahnEdges (buildGraph tasks u) (ind, q')).2
              (kahnEdges (buildGraph tasks u) (ind, q')).1 := by
          intro d hdd
          rcases hdeps d hdd with h | h
          · exact Or.inl (List.mem_append.mpr (Or.inl h))
          · rcases List.mem_cons.mp h with h' | h'
            · exact Or.inl (List.mem_append.mpr (Or.inr (by simp [h'])))
            · exact Or.inr h'
        rcases IH3 t ht hdeps' with h | h
        · rcases List.mem_append.mp h with h' | h'
          · exact Or.inl h'
          · rcases List.mem_singleton.mp h' with h''
            exact Or.inr (by rw [h'']; exact List.mem_cons_self _ _)
        · exact Or.inr (List.mem_cons_of_mem _ h)
      · intro t ht htid d hdd
        rcases List.mem_cons.mp htid with h | h
        · exact Or.inl (hqdeps t ht (by rw [h]; exact List.mem_cons_self _ _) d hdd)
        · have hne : u ≠ t.id := by
            intro heq
            rcases List.nodup_append.mp IH1 with ⟨_, _, hdisj⟩
            exact hdisj (List.mem_append.mpr (Or.inr (by simp [heq]))) h
          rcases IH4 t ht h d hdd with h' | h'
          · rcases List.mem_append.mp h' with h'' | h''
            · exact Or.inl h''
            · rcases List.mem_singleton.mp h'' with rfl
              exact Or.inr (Before_cons_head hne)
          · exact Or.inr (Before.cons h' hne)

/-- The seed queue is duplicate-free under unique ids. -/
theorem seedQueue_nodup {tasks : List Task} (hu : UniqueIds tasks) :
    (seedQueue tasks).Nodup := by
  unfold seedQueue
  have hsub : ((tasks.filter
      (fun t => ((buildIndeg tasks) t.id).getD 0 = 0)).map (·.id)).Sublist
      (tasks.map (·.id)) :=
    List.Sublist.map _ (List.filter_sublist _)
  exact List.Nodup.sublist hsub hu

theorem seedQueue_subset {tasks : List Task} :
    ∀ v ∈ seedQueue tasks, v ∈ idsOf tasks := by
  intro v hv
  unfold seedQueue at hv
  rcases List.mem_map.mp hv with ⟨t, ht, rfl⟩
  exact List.mem_map_of_mem _ (List.mem_of_mem_filter ht)

/-- The four structural properties of `topoSort`, for unique ids and
duplicate-free deps (no acyclicity needed): the order is duplicate-free,
holds only task ids, contains every task all of whose deps it contains, and
lists every member task strictly after each of its deps. -/
theorem topoSort_props (tasks : List Task) (hu : UniqueIds tasks)
    (hd : DepsNodup tasks) :
    (topoSort tasks).Nodup ∧
    (∀ v ∈ topoSort tasks, v ∈ idsOf tasks) ∧
    (∀ t ∈ tasks, (∀ d ∈ t.deps, d ∈ topoSort tasks) → t.id ∈ topoSort tasks) ∧
    (∀ t ∈ tasks, t.id ∈ topoSort tasks →
      ∀ d ∈ t.deps, Before (topoSort tasks) d t.id) := by
  have h := kahn_invariant tasks hu hd (kahnFuel tasks) [] (seedQueue tasks)
    (buildIndeg tasks)
    (by
      simp only [List.length_nil, Nat.add_zero, kahnFuel, idsOf, List.length_map]
      omega)
    (fun v hv => seedQueue_subset v hv)
    (by simp)
    (by simpa using seedQueue_nodup hu)
    (by
      intro t ht
      rw [buildIndeg_eq hu ht]
      congr 2
      have : t.deps.filter (fun d => d ∉ ([] : List String)) = t.deps := by
        apply List.filter_eq_self.mpr
        intro d _
        simp
      rw [this])
    (by
      intro t ht hdeps
      refine Or.inr ?_
      unfold seedQueue
      refine List.mem_map.mpr ⟨t, List.mem_filter.mpr ⟨ht, ?_⟩, rfl⟩
      rw [buildIndeg_eq hu ht]
      have : t.deps = [] := List.eq_nil_iff_forall_not_mem.mpr
        (fun d hdd => by cases hdeps d hdd)
      simp [this])
    (by
      intro t ht htq d hdd
      unfold seedQueue at htq
      rcases List.mem_map.mp htq with ⟨t', ht', hid⟩
      have ht'mem := List.mem_of_mem_filter ht'
      have hpred := List.of_mem_filter ht'
      rcases uniqueIds_inj hu ht ht'mem hid.symm with rfl
      rw [buildIndeg_eq hu ht] at hpred
      simp only [Option.getD_some, decide_eq_true_eq] at hpred
      have : t.deps.length = 0 := by exact_mod_cast hpred
      rw [List.length_eq_zero] at this
      rw [this] at hdd
      cases hdd)
    (by simp)
  obtain ⟨h1, h2, h3, h4⟩ := h
  refine ⟨by simpa using h1, h2, ?_, ?_⟩
  · intro t ht hdeps
    have := h3 t ht (fun d hdd => Or.inr (hdeps d hdd))
    rcases this with h | h
    · cases h
    · exact h
  · intro t ht htmem d hdd
    rcases h4 t ht htmem d hdd with h | h
    · cases h
    · exact h

/-- Completeness of `topoSort` on acyclic inputs with existing deps: every
task id makes it into the order. -/
theorem topoSort_complete {tasks : List Task} (hu : UniqueIds tasks)
    (hd : DepsNodup tasks) (hc : ClosedDeps tasks) {r : String → Nat}
    (hr : Ranked tasks r) : ∀ t ∈ tasks, t.id ∈ topoSort tasks := by
  obtain ⟨_, _, hready, _⟩ := topoSort_props tasks hu hd
  have main : ∀ k, ∀ t ∈ tasks, r t.id < k → t.id ∈ topoSort tasks := by
    intro k
    induction k with
    | zero => intro t ht h; omega
    | succ k ihk =>
      intro t ht hlt
      refine hready t ht ?_
      intro d hdd
      rcases List.mem_map.mp (hc t ht d hdd) with ⟨t', ht', rfl⟩
      have hrk : r t'.id < r t.id := hr t ht _ hdd
      exact ihk t' ht' (by omega)
  exact fun t ht => main (r t.id + 1) t ht (by omega)

/-- The processed queue is always extended at the back. -/
theorem kahnEdges_queue_extends (es : List String)
    (st : (String → Option Int) × List String) :
    ∃ Δ, (kahnEdges es st).2 = st.2 ++ Δ := by
  induction es generalizing st with
  | nil => exact ⟨[], by simp [kahnEdges]⟩
  | cons v rest ih =>
    show ∃ Δ, (kahnEdges rest _).2 = _
    rcases ih ((mupd st.1 v ((st.1 v).getD 0 - 1)),
      if (st.1 v).getD 0 - 1 = 0 then st.2 ++ [v] else st.2) with ⟨Δ, hΔ⟩
    by_cases h : (st.1 v).getD 0 - 1 = 0
    · exact ⟨[v] ++ Δ, by rw [hΔ]; simp [h]⟩
    · exact ⟨Δ, by rw [hΔ]; simp [h]⟩

/-- The initial queue is dequeued first, in order: it is a prefix of the
loop's output whenever the fuel covers it. -/
theorem kahnLoop_queue_prefix (g : String → List String) :
    ∀ (q extra : List String) (fuel : Nat) (ind : String → Option Int),
      q.length ≤ fuel →
      q.IsPrefix (kahnLoop g fuel (q ++ extra) ind) := by
  intro q
  induction q with
  | nil => intro extra fuel ind h; exact List.nil_prefix
  | cons u q' ih =>
    intro extra fuel ind h
    match fuel, h with
    | fuel + 1, h =>
      show (u :: q').IsPrefix
        (u :: kahnLoop g fuel (kahnEdges (g u) (ind, q' ++ extra)).2
          (kahnEdges (g u) (ind, q' ++ extra)).1)
      rcases kahnEdges_queue_extends (g u) (ind, q' ++ extra) with ⟨Δ, hΔ⟩
      rw [hΔ, List.append_assoc]
      have hpre := ih (extra ++ Δ) fuel (kahnEdges (g u) (ind, q' ++ extra)).1
        (by simpa using Nat.le_of_succ_le_succ h)
      rcases hpre with ⟨rest, hrest⟩
      exact ⟨rest, by rw [List.cons_append, hrest]⟩

/-- The in-degree-0 tasks (those with no deps) head the topological order,
in input order. -/
theorem topoSort_seed_prefix (tasks : List Task) :
    (seedQueue tasks).IsPrefix (topoSort tasks) := by
  unfold topoSort
  have h := kahnLoop_queue_prefix (buildGraph tasks) (seedQueue tasks) []
    (kahnFuel tasks) (buildIndeg tasks) ?_
  · simpa using h
  · unfold kahnFuel
    have : (seedQueue tasks).length ≤ tasks.length := by
      unfold seedQueue
      calc ((tasks.filter _).map (·.id)).length
          = (tasks.filter _).length := List.length_map _ _
        _ ≤ tasks.length := List.length_filter_le _ _
    omega

/-! ### Forward pass characterization -/

@[simp] theorem getNum_some (v : Int) : getNum (some (some v)) = v := rfl

theorem jVal_of_getNum {x : Option JsNum} {v : Int} (h : x = some (some v)) :
    jVal x = some v := by rw [h]; rfl

theorem foldl_max_init (l : List Int) : ∀ a b : Int,
    l.foldl max (max a b) = max (l.foldl max a) b := by
  induction l with
  | nil => intro a b; rfl
  | cons x xs ih =>
    intro a b
    simp only [List.foldl_cons]
    rw [show max (max a b) x = max (max a x) b by
      rw [max_assoc, max_comm b x, ← max_assoc]]
    exact ih (max a x) b

/-- The clamped start computed by the forward pass, in the spec's
`max(0, max EF over deps, override)` form, valid whenever all dep EF entries
are present and the override is non-negative. -/
theorem jMax2_predEF (ef : JMap) (deps : List String) (msv : Int)
    (hp : ∀ d ∈ deps, ∃ v, ef d = some (some v)) (hnn : 0 ≤ msv) :
    jMax2 (predEF ef deps) (some msv)
      = some (max ((deps.map (fun d => getNum (ef d))).foldl max 0) msv) := by
  cases deps with
  | nil => simp [predEF, jMax2]
  | cons d ds =>
    have hmap : ds.map (fun p => jVal (ef p))
        = (ds.map (fun p => getNum (ef p))).map some := by
      rw [List.map_map]
      apply List.map_congr_left
      intro p hpp
      rcases hp p (List.mem_cons_of_mem _ hpp) with ⟨v, hv⟩
      simp [hv, jVal, getNum]
    rcases hp d (List.mem_cons_self _ _) with ⟨v, hv⟩
    have hjd : jVal (ef d) = some (getNum (ef d)) := by simp [hv, jVal, getNum]
    show jMax2 ((ds.map (fun p => jVal (ef p))).foldl jMax2 (jVal (ef d)))
      (some msv) = _
    rw [hmap, hjd, foldl_jMax2_some]
    simp only [jMax2, Option.some.injEq]
    have hB : ((d :: ds).map (fun p => getNum (ef p))).foldl max 0
        = max ((ds.map (fun p => getNum (ef p))).foldl max (getNum (ef d))) 0 := by
      simp only [List.map_cons, List.foldl_cons]
      rw [max_comm (0 : Int) (getNum (ef d))]
      exact foldl_max_init _ _ _
    rw [hB, max_assoc, max_eq_right hnn]

/-- Evaluation of one forward step at a present task. -/
theorem fwdStep_eq_of_some {byid : String → Option Task} {ms : MSMap}
    {st : JMap × JMap} {id : String} {t : Task} (h : byid id = some t) :
    fwdStep byid ms st id
      = (mupd st.1 id (jMax2 (predEF st.2 t.deps) (some ((ms id).getD 0))),
         mupd st.2 id (jAdd (jMax2 (predEF st.2 t.deps) (some ((ms id).getD 0)))
           (some t.duration))) := by
  unfold fwdStep
  rw [h]

theorem fwdStep_frame (byid : String → Option Task) (ms : MSMap)
    (st : JMap × JMap) (id : String) {k : String} (hk : k ≠ id) :
    (fwdStep byid ms st id).1 k = st.1 k ∧
    (fwdStep byid ms st id).2 k = st.2 k := by
  unfold fwdStep
  cases byid id with
  | none => exact ⟨rfl, rfl⟩
  | some t => exact ⟨mupd_other _ _ hk, mupd_other _ _ hk⟩

theorem forwardPass_go_frame (byid : String → Option Task) (ms : MSMap) :
    ∀ (l : List String) (st : JMap × JMap) {k : String}, k ∉ l →
      (l.foldl (fwdStep byid ms) st).1 k = st.1 k ∧
      (l.foldl (fwdStep byid ms) st).2 k = st.2 k := by
  intro l
  induction l with
  | nil => intro st k hk; exact ⟨rfl, rfl⟩
  | cons id rest ih =>
    intro st k hk
    have hk1 : k ≠ id := fun h => hk (h ▸ List.mem_cons_self _ _)
    have hk2 : k ∉ rest := fun h => hk (List.mem_cons_of_mem _ h)
    rcases ih (fwdStep byid ms st id) hk2 with ⟨h1, h2⟩
    rcases fwdStep_frame byid ms st id hk1 with ⟨h3, h4⟩
    exact ⟨by rw [List.foldl_cons, h1, h3], by rw [List.foldl_cons, h2, h4]⟩

/-- Entries of ES/EF at keys outside the order are absent. -/
theorem forwardPass_none {byid : String → Option Task} {ms : MSMap}
    {order : List String} {k : String} (hk : k ∉ order) :
    (forwardPass byid ms order).1 k = none ∧
    (forwardPass byid ms order).2 k = none :=
  forwardPass_go_frame byid ms order _ hk

/-- One forward step preserves and extends the invariant. -/
theorem fwdInv_step (tasks : List Task) (hu : UniqueIds tasks)
    (hd : DepsNodup tasks) (ms : MSMap) (hms : NonnegMS ms)
    (pre suf : List String) (id : String)
    (hsplit : topoSort tasks = pre ++ id :: suf)
    (hinv : FwdInv tasks ms pre (pre.foldl (fwdStep (byId tasks) ms)
      (fun _ => none, fun _ => none))) :
    FwdInv tasks ms (pre ++ [id]) ((pre ++ [id]).foldl (fwdStep (byId tasks) ms)
      (fun _ => none, fun _ => none)) := by
  obtain ⟨hnodup, hids, _, hbefore⟩ := topoSort_props tasks hu hd
  have hidmem : id ∈ topoSort tasks := by
    rw [hsplit]; exact List.mem_append.mpr (Or.inr (List.mem_cons_self _ _))
  have hidnotpre : id ∉ pre := by
    rw [hsplit] at hnodup
    rcases List.nodup_append.mp hnodup with ⟨_, _, hdisj⟩
    intro h
    exact hdisj h (List.mem_cons_self _ _)
  rcases List.mem_map.mp (hids id hidmem) with ⟨t, ht, rfl⟩
  have hbyid : byId tasks t.id = some t := byId_eq_some hu ht
  have hdeps_pre : ∀ d ∈ t.deps, d ∈ pre := by
    intro d hdd
    exact hbefore t ht hidmem d hdd pre suf hsplit
  set st := pre.foldl (fwdStep (byId tasks) ms) (fun _ => none, fun _ => none)
    with hst
  have hdepsEF : ∀ d ∈ t.deps, ∃ v, st.2 d = some (some v) := by
    intro d hdd
    rcases hinv d (hdeps_pre d hdd) with ⟨t', es', _, _, _, _, _, hEF', _⟩
    exact ⟨es' + t'.duration, hEF'⟩
  have hmsnn : 0 ≤ (ms t.id).getD 0 := by
    cases hms' : ms t.id with
    | none => simp
    | some n => simpa using hms t.id n hms'
  have hstart := jMax2_predEF st.2 t.deps ((ms t.id).getD 0) hdepsEF hmsnn
  have hES1 : (fwdStep (byId tasks) ms st t.id).1
      = mupd st.1 t.id (some (max
          ((t.deps.map (fun d => getNum (st.2 d))).foldl max 0)
          ((ms t.id).getD 0))) := by
    rw [fwdStep_eq_of_some hbyid]
    show mupd st.1 t.id (jMax2 (predEF st.2 t.deps) (some ((ms t.id).getD 0))) = _
    rw [hstart]
  have hEF1 : (fwdStep (byId tasks) ms st t.id).2
      = mupd st.2 t.id (some (max
          ((t.deps.map (fun d => getNum (st.2 d))).foldl max 0)
          ((ms t.id).getD 0) + t.duration)) := by
    rw [fwdStep_eq_of_some hbyid]
    show mupd st.2 t.id (jAdd (jMax2 (predEF st.2 t.deps)
      (some ((ms t.id).getD 0))) (some t.duration)) = _
    rw [hstart]
    simp [jAdd]
  intro id' hid'
  rw [List.foldl_append, List.foldl_cons, List.foldl_nil, ← hst]
  rcases List.mem_append.mp hid' with hpre | hsing
  · rcases hinv id' hpre with ⟨t', es', hbyid', ht', htid', hdeps', hES', hEF', hes'⟩
    have hne : id' ≠ t.id := fun h => hidnotpre (h ▸ hpre)
    refine ⟨t', es', hbyid', ht', htid', fun d hdd => List.mem_append.mpr
      (Or.inl (hdeps' d hdd)), ?_, ?_, ?_⟩
    · rw [hES1, mupd_other _ _ hne]; exact hES'
    · rw [hEF1, mupd_other _ _ hne]; exact hEF'
    · rw [hes']
      congr 1
      apply congrArg (fun l => List.foldl max 0 l)
      apply List.map_congr_left
      intro d hdd
      have hdne : d ≠ t.id := fun h => hidnotpre (h ▸ hdeps' d hdd)
      rw [hEF1, mupd_other _ _ hdne]
  · rcases List.mem_singleton.mp hsing with rfl
    refine ⟨t, max ((t.deps.map (fun d => getNum (st.2 d))).foldl max 0)
      ((ms t.id).getD 0), hbyid, ht, rfl, fun d hdd => List.mem_append.mpr
      (Or.inl (hdeps_pre d hdd)), ?_, ?_, ?_⟩
    · rw [hES1, mupd_same]
    · rw [hEF1, mupd_same]
    · congr 1
      apply congrArg (fun l => List.foldl max 0 l)
      apply List.map_congr_left
      intro d hdd
      have hdne : d ≠ t.id := fun h => hidnotpre (h ▸ hdeps_pre d hdd)
      rw [hEF1, mupd_other _ _ hdne]

/-- The forward-pass invariant holds of the whole order. -/
theorem forwardPass_inv (tasks : List Task) (hu : UniqueIds tasks)
    (hd : DepsNodup tasks) (ms : MSMap) (hms : NonnegMS ms) :
    FwdInv tasks ms (topoSort tasks)
      (forwardPass (byId tasks) ms (topoSort tasks)) := by
  have main : ∀ suf pre, topoSort tasks = pre ++ suf →
      FwdInv tasks ms pre (pre.foldl (fwdStep (byId tasks) ms)
        (fun _ => none, fun _ => none)) →
      FwdInv tasks ms (topoSort tasks)
        ((topoSort tasks).foldl (fwdStep (byId tasks) ms)
          (fun _ => none, fun _ => none)) := by
    intro suf
    induction suf with
    | nil =>
      intro pre hsplit hinv
      rw [List.append_nil] at hsplit
      rw [hsplit]
      exact hinv
    | cons id suf' ih =>
      intro pre hsplit hinv
      exact ih (pre ++ [id]) (by rw [hsplit]; simp)
        (fwdInv_step tasks hu hd ms hms pre suf' id hsplit hinv)
  exact main (topoSort tasks) [] rfl (fun id hid => absurd hid (List.not_mem_nil id))

/-- `projectDuration` is a present integer: the maximum of 0 and the EF
values along the order. -/
theorem projectDuration_char (tasks : List Task) (hu : UniqueIds tasks)
    (hd : DepsNodup tasks) (ms : MSMap) (hms : NonnegMS ms) :
    ∃ pdv, projectDurationOf (topoSort tasks)
        (forwardPass (byId tasks) ms (topoSort tasks)).2 = some pdv ∧
      0 ≤ pdv ∧
      (∀ id ∈ topoSort tasks,
        getNum ((forwardPass (byId tasks) ms (topoSort tasks)).2 id) ≤ pdv) ∧
      (pdv = 0 ∨ ∃ id ∈ topoSort tasks,
        getNum ((forwardPass (byId tasks) ms (topoSort tasks)).2 id) = pdv) := by
  have hinv := forwardPass_inv tasks hu hd ms hms
  have hpres : ∀ id ∈ topoSort tasks,
      ∃ v, (forwardPass (byId tasks) ms (topoSort tasks)).2 id = some (some v) := by
    intro id hid
    rcases hinv id hid with ⟨t, es, _, _, _, _, _, hEF, _⟩
    exact ⟨es + t.duration, hEF⟩
  have hmap : (topoSort tasks).map
      (fun id => jVal ((forwardPass (byId tasks) ms (topoSort tasks)).2 id))
      = ((topoSort tasks).map
        (fun id => getNum ((forwardPass (byId tasks) ms (topoSort tasks)).2 id))).map
          some := by
    rw [List.map_map]
    apply List.map_congr_left
    intro id hid
    rcases hpres id hid with ⟨v, hv⟩
    simp [hv, jVal, getNum]
  refine ⟨((topoSort tasks).map
      (fun id => getNum ((forwardPass (byId tasks) ms (topoSort tasks)).2 id))).foldl
        max 0, ?_, ?_, ?_, ?_⟩
  · unfold projectDurationOf
    rw [hmap, foldl_jMax2_some]
  · exact le_foldl_max _ _
  · intro id hid
    exact mem_le_foldl_max _ _ (List.mem_map_of_mem _ hid)
  · rcases foldl_max_cases ((topoSort tasks).map
        (fun id => getNum ((forwardPass (byId tasks) ms (topoSort tasks)).2 id))) 0
      with h | h
    · exact Or.inl h
    · rcases List.mem_map.mp h with ⟨id, hid, hval⟩
      exact Or.inr ⟨id, hid, hval⟩

theorem le_foldl_min (l : List Int) : ∀ (b a : Int), a ≤ b →
    (∀ x ∈ l, a ≤ x) → a ≤ l.foldl min b := by
  induction l with
  | nil => intro b a hab _; simpa using hab
  | cons x xs ih =>
    intro b a hab hal
    simp only [List.foldl_cons]
    exact ih (min b x) a (le_min hab (hal x (List.mem_cons_self _ _)))
      (fun y hy => hal y (List.mem_cons_of_mem _ hy))

/-! ### Backward pass characterization -/

theorem succLF_nil (ls : JMap) (pd : JsNum) : succLF ls pd [] = pd := rfl

theorem succLF_cons (ls : JMap) (pd : JsNum) (w : String) (ws : List String)
    (hp : ∀ x ∈ w :: ws, ∃ v, ls x = some (some v)) :
    succLF ls pd (w :: ws)
      = some ((ws.map (fun v => getNum (ls v))).foldl min (getNum (ls w))) := by
  have hmap : ws.map (fun x => jVal (ls x))
      = (ws.map (fun x => getNum (ls x))).map some := by
    rw [List.map_map]
    apply List.map_congr_left
    intro x hx
    rcases hp x (List.mem_cons_of_mem _ hx) with ⟨v, hv⟩
    simp [hv, jVal, getNum]
  rcases hp w (List.mem_cons_self _ _) with ⟨v, hv⟩
  have hjw : jVal (ls w) = some (getNum (ls w)) := by simp [hv, jVal, getNum]
  show (ws.map (fun x => jVal (ls x))).foldl jMin2 (jVal (ls w)) = _
  rw [hmap, hjw, foldl_jMin2_some]

/-- Evaluation of one backward step at a present task. -/
theorem bwdStep_eq_of_some {byid : String → Option Task}
    {succs : String → List String} {pd : JsNum} {st : JMap × JMap} {id : String}
    {t : Task} (h : byid id = some t) :
    bwdStep byid succs pd st id
      = (mupd st.1 id (jSub (succLF st.1 pd (succs id)) (some t.duration)),
         mupd st.2 id (succLF st.1 pd (succs id))) := by
  unfold bwdStep
  rw [h]

theorem bwdStep_frame (byid : String → Option Task)
    (succs : String → List String) (pd : JsNum) (st : JMap × JMap) (id : String)
    {k : String} (hk : k ≠ id) :
    (bwdStep byid succs pd st id).1 k = st.1 k ∧
    (bwdStep byid succs pd st id).2 k = st.2 k := by
  unfold bwdStep
  cases byid id with
  | none => exact ⟨rfl, rfl⟩
  | some t => exact ⟨mupd_other _ _ hk, mupd_other _ _ hk⟩

theorem backwardPass_go_frame (byid : String → Option Task)
    (succs : String → List String) (pd : JsNum) :
    ∀ (l : List String) (st : JMap × JMap) {k : String}, k ∉ l →
      (l.foldl (bwdStep byid succs pd) st).1 k = st.1 k ∧
      (l.foldl (bwdStep byid succs pd) st).2 k = st.2 k := by
  intro l
  induction l with
  | nil => intro st k hk; exact ⟨rfl, rfl⟩
  | cons id rest ih =>
    intro st k hk
    have hk1 : k ≠ id := fun h => hk (h ▸ List.mem_cons_self _ _)
    have hk2 : k ∉ rest := fun h => hk (List.mem_cons_of_mem _ h)
    rcases ih (bwdStep byid succs pd st id) hk2 with ⟨h1, h2⟩
    rcases bwdStep_frame byid succs pd st id hk1 with ⟨h3, h4⟩
    exact ⟨by rw [List.foldl_cons, h1, h3], by rw [List.foldl_cons, h2, h4]⟩

/-- Entries of LS/LF at keys outside the order are absent. -/
theorem backwardPass_none {byid : String → Option Task}
    {succs : String → List String} {pd : JsNum} {order : List String}
    {k : String} (hk : k ∉ order) :
    (backwardPass byid succs pd order).1 k = none ∧
    (backwardPass byid succs pd order).2 k = none := by
  have hk' : k ∉ order.reverse := fun h => hk (List.mem_reverse.mp h)
  exact backwardPass_go_frame byid succs pd order.reverse _ hk'

/-- One backward step preserves and extends the invariant. -/
theorem bwdInv_step (tasks : List Task) (hu : UniqueIds tasks)
    (hd : DepsNodup tasks) (hc : ClosedDeps tasks) {r : String → Nat}
    (hr : Ranked tasks r) (hpos : PosDur tasks) (ms : MSMap) (hms : NonnegMS ms)
    {pdv : Int}
    (hpd : projectDurationOf (topoSort tasks)
      (forwardPass (byId tasks) ms (topoSort tasks)).2 = some pdv)
    (hub : ∀ i ∈ topoSort tasks,
      getNum ((forwardPass (byId tasks) ms (topoSort tasks)).2 i) ≤ pdv)
    (preR sufR : List String) (id : String)
    (hsplit : (topoSort tasks).reverse = preR ++ id :: sufR)
    (hinv : BwdInv tasks (forwardPass (byId tasks) ms (topoSort tasks)).2 pdv preR
      (preR.foldl (bwdStep (byId tasks) (buildGraph tasks)
        (projectDurationOf (topoSort tasks)
          (forwardPass (byId tasks) ms (topoSort tasks)).2))
        (fun _ => none, fun _ => none))) :
    BwdInv tasks (forwardPass (byId tasks) ms (topoSort tasks)).2 pdv (preR ++ [id])
      ((preR ++ [id]).foldl (bwdStep (byId tasks) (buildGraph tasks)
        (projectDurationOf (topoSort tasks)
          (forwardPass (byId tasks) ms (topoSort tasks)).2))
        (fun _ => none, fun _ => none)) := by
  obtain ⟨hnodup, hids, _, hbefore⟩ := topoSort_props tasks hu hd
  have hcomp := topoSort_complete hu hd hc hr
  have hfwd := forwardPass_inv tasks hu hd ms hms
  have horder : topoSort tasks = sufR.reverse ++ id :: preR.reverse := by
    rw [← List.reverse_reverse (topoSort tasks), hsplit]
    simp
  have hidmem : id ∈ topoSort tasks := by
    rw [horder]
    exact List.mem_append.mpr (Or.inr (List.mem_cons_self _ _))
  have hrevnodup : (topoSort tasks).reverse.Nodup := List.nodup_reverse.mpr hnodup
  have hidnotpre : id ∉ preR := by
    rw [hsplit] at hrevnodup
    rcases List.nodup_append.mp hrevnodup with ⟨_, _, hdisj⟩
    intro h
    exact hdisj h (List.mem_cons_self _ _)
  rcases List.mem_map.mp (hids id hidmem) with ⟨t, ht, rfl⟩
  have hbyid : byId tasks t.id = some t := byId_eq_some hu ht
  set EF := (forwardPass (byId tasks) ms (topoSort tasks)).2 with hEFdef
  set pdj := projectDurationOf (topoSort tasks) EF with hpdj
  set st := preR.foldl (bwdStep (byId tasks) (buildGraph tasks) pdj)
    (fun _ => none, fun _ => none) with hst
  have hsucc : ∀ w ∈ buildGraph tasks t.id, w ∈ preR ∧ ∃ lsw,
      st.1 w = some (some lsw) ∧ getNum (EF t.id) ≤ lsw ∧ lsw ≤ pdv - 1 := by
    intro w hw
    rcases mem_buildGraph_iff.mp hw with ⟨v, hv, rfl, hdep⟩
    have hword : v.id ∈ topoSort tasks := hcomp v hv
    have hne : v.id ≠ t.id := by
      have hlt := hr v hv t.id hdep
      intro heq
      rw [heq] at hlt
      omega
    have hbef : Before (topoSort tasks) t.id v.id := hbefore v hv hword t.id hdep
    have hwpre : v.id ∈ preR := by
      have := Before_mem_suffix hbef hnodup horder hword hne
      exact List.mem_reverse.mp this
    rcases hinv v.id hwpre with
      ⟨t', lf', hbyid', ht', htid', _, hLF', hLS', _, _, hle', hef'⟩
    have ht'v : t' = v := uniqueIds_inj hu ht' hv htid'
    rcases hfwd v.id hword with ⟨tv, esv, hbyidv, htv, htidv, _, hESv, hEFv, hesv⟩
    have htvv : tv = v := uniqueIds_inj hu htv hv htidv
    have hmem : getNum (EF t.id) ∈ tv.deps.map (fun d => getNum (EF d)) := by
      rw [htvv]
      exact List.mem_map_of_mem _ hdep
    have h1 : getNum (EF t.id) ≤ esv := by
      rw [hesv]
      exact le_trans (mem_le_foldl_max _ _ hmem) (le_max_left _ _)
    have hefval : getNum (EF v.id) = esv + tv.duration := by
      rw [hEFdef, hEFv]
      rfl
    have h2 : esv + tv.duration ≤ lf' := by rw [← hefval]; exact hef'
    have hdur : 1 ≤ tv.duration := hpos tv htv
    have hdeq : t'.duration = tv.duration := by rw [ht'v, htvv]
    exact ⟨hwpre, lf' - t'.duration, hLS', by omega, by omega⟩
  -- evaluate the step at t.id
  have hpdval : pdj = some pdv := hpd
  have hpres : ∀ w ∈ buildGraph tasks t.id, ∃ x, st.1 w = some (some x) := by
    intro w hw
    rcases hsucc w hw with ⟨_, lsw, hlsw, _, _⟩
    exact ⟨lsw, hlsw⟩
  have hstep := @bwdStep_eq_of_some _ (buildGraph tasks) pdj st _ _ hbyid
  -- the new LF value
  rcases hgr : buildGraph tasks t.id with _ | ⟨w, ws⟩
  case nil =>
    have hlf : succLF st.1 pdj (buildGraph tasks t.id) = some pdv := by
      rw [hgr, succLF_nil, hpdval]
    have hLS1 : (bwdStep (byId tasks) (buildGraph tasks) pdj st t.id).1
        = mupd st.1 t.id (some (pdv - t.duration)) := by
      rw [hstep]
      show mupd st.1 t.id (jSub (succLF st.1 pdj (buildGraph tasks t.id))
        (some t.duration)) = _
      rw [hlf]
      simp [jSub]
    have hLF1 : (bwdStep (byId tasks) (buildGraph tasks) pdj st t.id).2
        = mupd st.2 t.id (some pdv) := by
      rw [hstep]
      show mupd st.2 t.id (succLF st.1 pdj (buildGraph tasks t.id)) = _
      rw [hlf]
    intro id' hid'
    rw [List.foldl_append, List.foldl_cons, List.foldl_nil, ← hst]
    rcases List.mem_append.mp hid' with hpre | hsing
    · rcases hinv id' hpre with
        ⟨t', lf', hbyid', ht', htid', hsuccs', hLF', hLS', hnil', hcons', hle', hef'⟩
      have hne : id' ≠ t.id := fun h => hidnotpre (h ▸ hpre)
      refine ⟨t', lf', hbyid', ht', htid',
        fun x hx => List.mem_append.mpr (Or.inl (hsuccs' x hx)), ?_, ?_, hnil', ?_,
        hle', hef'⟩
      · rw [hLF1, mupd_other _ _ hne]; exact hLF'
      · rw [hLS1, mupd_other _ _ hne]; exact hLS'
      · intro x xs hxs
        rw [hcons' x xs hxs]
        have hxne : ∀ y ∈ x :: xs, y ≠ t.id := by
          intro y hy h
          exact hidnotpre (h ▸ hsuccs' y (hxs ▸ hy))
        rw [hLS1]
        congr 1
        · rw [mupd_other _ _ (hxne x (List.mem_cons_self _ _))]
        · apply List.map_congr_left
          intro y hy
          rw [mupd_other _ _ (hxne y (List.mem_cons_of_mem _ hy))]
    · rcases List.mem_singleton.mp hsing with rfl
      refine ⟨t, pdv, hbyid, ht, rfl,
        fun x hx => absurd hx (by rw [hgr]; exact List.not_mem_nil x), ?_, ?_,
        fun _ => rfl, ?_, le_refl pdv, hub t.id hidmem⟩
      · rw [hLF1, mupd_same]
      · rw [hLS1, mupd_same]
      · intro x xs hxs
        rw [hgr] at hxs
        cases hxs
  case cons =>
    have hpres' : ∀ x ∈ w :: ws, ∃ v, st.1 x = some (some v) := by
      intro x hx
      exact hpres x (by rw [hgr]; exact hx)
    have hlf : succLF st.1 pdj (buildGraph tasks t.id)
        = some ((ws.map (fun v => getNum (st.1 v))).foldl min (getNum (st.1 w))) := by
      rw [hgr]
      exact succLF_cons st.1 pdj w ws hpres'
    set lfv := (ws.map (fun v => getNum (st.1 v))).foldl min (getNum (st.1 w))
      with hlfv
    have hwmem : w ∈ buildGraph tasks t.id := by rw [hgr]; exact List.mem_cons_self _ _
    rcases hsucc w hwmem with ⟨hwpre, lsw, hlsw, hlsw1, hlsw2⟩
    have hgw : getNum (st.1 w) = lsw := by rw [hlsw]; rfl
    have hlf_ub : lfv ≤ pdv := by
      have hub1 : lfv ≤ getNum (st.1 w) := foldl_min_le _ _
      omega
    have hlf_lb : getNum (EF t.id) ≤ lfv := by
      apply le_foldl_min
      · rw [hgw]; omega
      · intro x hx
        rcases List.mem_map.mp hx with ⟨y, hy, rfl⟩
        have hymem : y ∈ buildGraph tasks t.id := by
          rw [hgr]; exact List.mem_cons_of_mem _ hy
        rcases hsucc y hymem with ⟨_, lsy, hlsy, hlsy1, _⟩
        rw [show getNum (st.1 y) = lsy by rw [hlsy]; rfl]
        exact hlsy1
    have hLS1 : (bwdStep (byId tasks) (buildGraph tasks) pdj st t.id).1
        = mupd st.1 t.id (some (lfv - t.duration)) := by
      rw [hstep]
      show mupd st.1 t.id (jSub (succLF st.1 pdj (buildGraph tasks t.id))
        (some t.duration)) = _
      rw [hlf]
      simp [jSub]
    have hLF1 : (bwdStep (byId tasks) (buildGraph tasks) pdj st t.id).2
        = mupd st.2 t.id (some lfv) := by
      rw [hstep]
      show mupd st.2 t.id (succLF st.1 pdj (buildGraph tasks t.id)) = _
      rw [hlf]
    intro id' hid'
    rw [List.foldl_append, List.foldl_cons, List.foldl_nil, ← hst]
    rcases List.mem_append.mp hid' with hpre | hsing
    · rcases hinv id' hpre with
        ⟨t', lf', hbyid', ht', htid', hsuccs', hLF', hLS', hnil', hcons', hle', hef'⟩
      have hne : id' ≠ t.id := fun h => hidnotpre (h ▸ hpre)
      refine ⟨t', lf', hbyid', ht', htid',
        fun x hx => List.mem_append.mpr (Or.inl (hsuccs' x hx)), ?_, ?_, hnil', ?_,
        hle', hef'⟩
      · rw [hLF1, mupd_other _ _ hne]; exact hLF'
      · rw [hLS1, mupd_other _ _ hne]; exact hLS'
      · intro x xs hxs
        rw [hcons' x xs hxs]
        have hxne : ∀ y ∈ x :: xs, y ≠ t.id := by
          intro y hy h
          exact hidnotpre (h ▸ hsuccs' y (hxs ▸ hy))
        rw [hLS1]
        congr 1
        · rw [mupd_other _ _ (hxne x (List.mem_cons_self _ _))]
        · apply List.map_congr_left
          intro y hy
          rw [mupd_other _ _ (hxne y (List.mem_cons_of_mem _ hy))]
    · rcases List.mem_singleton.mp hsing with rfl
      have hsuccpre : ∀ x ∈ buildGraph tasks t.id, x ∈ preR ++ [t.id] := by
        intro x hx
        rcases hsucc x hx with ⟨hxpre, _⟩
        exact List.mem_append.mpr (Or.inl hxpre)
      refine ⟨t, lfv, hbyid, ht, rfl, hsuccpre, ?_, ?_, ?_, ?_, hlf_ub, hlf_lb⟩
      · rw [hLF1, mupd_same]
      · rw [hLS1, mupd_same]
      · intro h
        rw [hgr] at h
        cases h
      · intro x xs hxs
        rw [hgr] at hxs
        injection hxs with h1 h2
        subst h1
        subst h2
        rw [hlfv, hLS1]
        have hxne : ∀ y ∈ w :: ws, y ≠ t.id := by
          intro y hy h
          have hymem : y ∈ buildGraph tasks t.id := by rw [hgr]; exact hy
          rcases hsucc y hymem with ⟨hypre, _⟩
          exact hidnotpre (h ▸ hypre)
        congr 1
        · rw [mupd_other _ _ (hxne w (List.mem_cons_self _ _))]
        · apply List.map_congr_left
          intro y hy
          rw [mupd_other _ _ (hxne y (List.mem_cons_of_mem _ hy))]

/-- The backward-pass invariant holds of the whole reversed order. -/
theorem backwardPass_inv (tasks : List Task) (hu : UniqueIds tasks)
    (hd : DepsNodup tasks) (hc : ClosedDeps tasks) {r : String → Nat}
    (hr : Ranked tasks r) (hpos : PosDur tasks) (ms : MSMap) (hms : NonnegMS ms)
    {pdv : Int}
    (hpd : projectDurationOf (topoSort tasks)
      (forwardPass (byId tasks) ms (topoSort tasks)).2 = some pdv)
    (hub : ∀ i ∈ topoSort tasks,
      getNum ((forwardPass (byId tasks) ms (topoSort tasks)).2 i) ≤ pdv) :
    BwdInv tasks (forwardPass (byId tasks) ms (topoSort tasks)).2 pdv
      (topoSort tasks).reverse
      (backwardPass (byId tasks) (buildGraph tasks)
        (projectDurationOf (topoSort tasks)
          (forwardPass (byId tasks) ms (topoSort tasks)).2) (topoSort tasks)) := by
  have main : ∀ suf pre, (topoSort tasks).reverse = pre ++ suf →
      BwdInv tasks (forwardPass (byId tasks) ms (topoSort tasks)).2 pdv pre
        (pre.foldl (bwdStep (byId tasks) (buildGraph tasks)
          (projectDurationOf (topoSort tasks)
            (forwardPass (byId tasks) ms (topoSort tasks)).2))
          (fun _ => none, fun _ => none)) →
      BwdInv tasks (forwardPass (byId tasks) ms (topoSort tasks)).2 pdv
        (topoSort tasks).reverse
        ((topoSort tasks).reverse.foldl (bwdStep (byId tasks) (buildGraph tasks)
          (projectDurationOf (topoSort tasks)
            (forwardPass (byId tasks) ms (topoSort tasks)).2))
          (fun _ => none, fun _ => none)) := by
    intro suf
    induction suf with
    | nil =>
      intro pre hsplit hinv
      rw [List.append_nil] at hsplit
      rw [hsplit]
      exact hinv
    | cons id suf' ih =>
      intro pre hsplit hinv
      exact ih (pre ++ [id]) (by rw [hsplit]; simp)
        (bwdInv_step tasks hu hd hc hr hpos ms hms hpd hub pre suf' id hsplit hinv)
  exact main (topoSort tasks).reverse [] rfl
    (fun id hid => absurd hid (List.not_mem_nil id))

/-! ### Slack and critical set characterization -/

theorem slackCritical_go_frame (ES LS : JMap) :
    ∀ (l : List Task) (st : JMap × List String) {k : String}, k ∉ idsOf l →
      (l.foldl (fun st t =>
        (mupd st.1 t.id (jSub (jVal (LS t.id)) (jVal (ES t.id))),
         if jSub (jVal (LS t.id)) (jVal (ES t.id)) = some 0 then
           (if t.id ∈ st.2 then st.2 else st.2 ++ [t.id])
         else st.2)) st).1 k = st.1 k := by
  intro l
  induction l with
  | nil => intro st k hk; rfl
  | cons t rest ih =>
    intro st k hk
    have hk1 : k ≠ t.id := fun h => hk (by simp [idsOf, h])
    have hk2 : k ∉ idsOf rest := fun h => hk (by simp [idsOf] at h ⊢; exact Or.inr h)
    rw [List.foldl_cons, ih _ hk2]
    exact mupd_other _ _ hk1

theorem slackCritical_eq_foldl (tasks : List Task) (ES LS : JMap) :
    slackCritical tasks ES LS
      = tasks.foldl (fun st t =>
        (mupd st.1 t.id (jSub (jVal (LS t.id)) (jVal (ES t.id))),
         if jSub (jVal (LS t.id)) (jVal (ES t.id)) = some 0 then
           (if t.id ∈ st.2 then st.2 else st.2 ++ [t.id])
         else st.2)) (fun _ => none, []) := rfl

/-- Keys outside the task ids get no slack entry. -/
theorem slackCritical_none {tasks : List Task} {ES LS : JMap} {k : String}
    (hk : k ∉ idsOf tasks) : (slackCritical tasks ES LS).1 k = none := by
  rw [slackCritical_eq_foldl]
  exact slackCritical_go_frame ES LS tasks _ hk

/-- Every task gets the slack entry `LS[t.id] - ES[t.id]` (NaN-aware). -/
theorem slackCritical_entry {tasks : List Task} (hu : UniqueIds tasks)
    {t : Task} (ht : t ∈ tasks) (ES LS : JMap) :
    (slackCritical tasks ES LS).1 t.id
      = some (jSub (jVal (LS t.id)) (jVal (ES t.id))) := by
  rcases uniqueIds_split hu ht with ⟨l₁, l₂, hsp, h₁, h₂⟩
  rw [slackCritical_eq_foldl, hsp, List.foldl_append, List.foldl_cons,
    slackCritical_go_frame _ _ _ _ h₂]
  exact mupd_same _ _ _

/-- Membership in the critical set. -/
theorem slackCritical_critical_mem (ES LS : JMap) :
    ∀ (l : List Task) (st : JMap × List String) (id : String),
      (id ∈ (l.foldl (fun st t =>
        (mupd st.1 t.id (jSub (jVal (LS t.id)) (jVal (ES t.id))),
         if jSub (jVal (LS t.id)) (jVal (ES t.id)) = some 0 then
           (if t.id ∈ st.2 then st.2 else st.2 ++ [t.id])
         else st.2)) st).2
        ↔ id ∈ st.2 ∨ ∃ t ∈ l, t.id = id ∧
            jSub (jVal (LS t.id)) (jVal (ES t.id)) = some 0) := by
  intro l
  induction l with
  | nil => intro st id; simp
  | cons t rest ih =>
    intro st id
    rw [List.foldl_cons, ih]
    constructor
    · rintro (h | h)
      · by_cases hz : jSub (jVal (LS t.id)) (jVal (ES t.id)) = some 0
        · rw [if_pos hz] at h
          by_cases hmem : t.id ∈ st.2
          · rw [if_pos hmem] at h
            exact Or.inl h
          · rw [if_neg hmem] at h
            rcases List.mem_append.mp h with h' | h'
            · exact Or.inl h'
            · rcases List.mem_singleton.mp h' with rfl
              exact Or.inr ⟨t, List.mem_cons_self _ _, rfl, hz⟩
        · rw [if_neg hz] at h
          exact Or.inl h
      · rcases h with ⟨t', ht', htid', hz'⟩
        exact Or.inr ⟨t', List.mem_cons_of_mem _ ht', htid', hz'⟩
    · rintro (h | ⟨t', ht', htid', hz'⟩)
      · refine Or.inl ?_
        by_cases hz : jSub (jVal (LS t.id)) (jVal (ES t.id)) = some 0
        · rw [if_pos hz]
          by_cases hmem : t.id ∈ st.2
          · rwa [if_pos hmem]
          · rw [if_neg hmem]
            exact List.mem_append.mpr (Or.inl h)
        · rwa [if_neg hz]
      · rcases List.mem_cons.mp ht' with rfl | hrest
        · refine Or.inl ?_
          subst htid'
          show t'.id ∈ if jSub (jVal (LS t'.id)) (jVal (ES t'.id)) = some 0 then
            (if t'.id ∈ st.2 then st.2 else st.2 ++ [t'.id]) else st.2
          rw [if_pos hz']
          by_cases hmem : t'.id ∈ st.2
          · rwa [if_pos hmem]
          · rw [if_neg hmem]
            exact List.mem_append.mpr (Or.inr (List.mem_singleton.mpr rfl))
        · exact Or.inr ⟨t', hrest, htid', hz'⟩

theorem critical_mem_iff (tasks : List Task) (ES LS : JMap) (id : String) :
    id ∈ (slackCritical tasks ES LS).2
      ↔ ∃ t ∈ tasks, t.id = id ∧
          jSub (jVal (LS t.id)) (jVal (ES t.id)) = some 0 := by
  rw [slackCritical_eq_foldl]
  rw [slackCritical_critical_mem ES LS tasks (fun _ => none, []) id]
  simp

/-! ### Projections of `computeCPM` -/

theorem computeCPM_ES (tasks : List Task) (ms : MSMap) :
    (computeCPM tasks ms).ES
      = (forwardPass (byId tasks) ms (topoSort tasks)).1 := rfl

theorem computeCPM_EF (tasks : List Task) (ms : MSMap) :
    (computeCPM tasks ms).EF
      = (forwardPass (byId tasks) ms (topoSort tasks)).2 := rfl

theorem computeCPM_PD (tasks : List Task) (ms : MSMap) :
    (computeCPM tasks ms).projectDuration
      = projectDurationOf (topoSort tasks)
          (forwardPass (byId tasks) ms (topoSort tasks)).2 := rfl

theorem computeCPM_LS (tasks : List Task) (ms : MSMap) :
    (computeCPM tasks ms).LS
      = (backwardPass (byId tasks) (buildGraph tasks)
          (projectDurationOf (topoSort tasks)
            (forwardPass (byId tasks) ms (topoSort tasks)).2)
          (topoSort tasks)).1 := rfl

theorem computeCPM_LF (tasks : List Task) (ms : MSMap) :
    (computeCPM tasks ms).LF
      = (backwardPass (byId tasks) (buildGraph tasks)
          (projectDurationOf (topoSort tasks)
            (forwardPass (byId tasks) ms (topoSort tasks)).2)
          (topoSort tasks)).2 := rfl

theorem computeCPM_slack (tasks : List Task) (ms : MSMap) :
    (computeCPM tasks ms).slack
      = (slackCritical tasks (computeCPM tasks ms).ES (computeCPM tasks ms).LS).1 := rfl

theorem computeCPM_critical (tasks : List Task) (ms : MSMap) :
    (computeCPM tasks ms).critical
      = (slackCritical tasks (computeCPM tasks ms).ES (computeCPM tasks ms).LS).2 := rfl

theorem foldl_max_le (l : List Int) : ∀ (a M : Int), a ≤ M →
    (∀ x ∈ l, x ≤ M) → l.foldl max a ≤ M := by
  induction l with
  | nil => intro a M h _; simpa using h
  | cons x xs ih =>
    intro a M h hall
    simp only [List.foldl_cons]
    exact ih (max a x) M (max_le h (hall x (List.mem_cons_self _ _)))
      (fun y hy => hall y (List.mem_cons_of_mem _ hy))

/-! ### Claim theorems: the CPM passes -/

/-- C1: with existing deps, acyclic dependencies and non-negative overrides,
the forward pass gives every task a present integer ES equal to
`max(0, max EF over its deps, its minStart override)` and EF = ES + duration;
a task with no deps and no override gets ES = 0. -/
theorem claim_C1_forward_pass (tasks : List Task) (ms : MSMap)
    (hu : UniqueIds tasks) (hd : DepsNodup tasks) (hc : ClosedDeps tasks)
    (hacyc : ∃ r, Ranked tasks r) (hms : NonnegMS ms) :
    ∀ t ∈ tasks, ∃ es,
      (computeCPM tasks ms).ES t.id = some (some es) ∧
      (computeCPM tasks ms).EF t.id = some (some (es + t.duration)) ∧
      es = max ((t.deps.map (fun d => getNum ((computeCPM tasks ms).EF d))).foldl
        max 0) ((ms t.id).getD 0) ∧
      (t.deps = [] → ms t.id = none → es = 0) := by
  rcases hacyc with ⟨r, hr⟩
  intro t ht
  have hmem := topoSort_complete hu hd hc hr t ht
  rcases forwardPass_inv tasks hu hd ms hms t.id hmem with
    ⟨t', es, hbyid', ht', htid', _, hES, hEF, hes⟩
  have heq : t' = t := uniqueIds_inj hu ht' ht htid'
  subst heq
  refine ⟨es, by rw [computeCPM_ES]; exact hES,
    by rw [computeCPM_EF]; exact hEF, by rw [computeCPM_EF]; exact hes, ?_⟩
  intro hdeps hover
  rw [hes, hdeps, hover]
  simp

/-- C2: on well-formed acyclic input the backward pass gives sink tasks
LF = projectDuration (the maximum EF), non-sink tasks LF = min over their
successors' LS, and LS = LF − duration; for every task EF = ES + duration
and LF = LS + duration. -/
theorem claim_C2_backward_pass (tasks : List Task) (ms : MSMap)
    (hu : UniqueIds tasks) (hd : DepsNodup tasks) (hc : ClosedDeps tasks)
    (hacyc : ∃ r, Ranked tasks r) (hpos : PosDur tasks) (hms : NonnegMS ms) :
    ∃ pd, (computeCPM tasks ms).projectDuration = some pd ∧
      pd = max ((tasks.map (fun t => getNum ((computeCPM tasks ms).EF t.id))).foldl
        max 0) 0 ∧
      ∀ t ∈ tasks, ∃ es lf,
        (computeCPM tasks ms).ES t.id = some (some es) ∧
        (computeCPM tasks ms).EF t.id = some (some (es + t.duration)) ∧
        (computeCPM tasks ms).LF t.id = some (some lf) ∧
        (computeCPM tasks ms).LS t.id = some (some (lf - t.duration)) ∧
        lf = (lf - t.duration) + t.duration ∧
        (buildGraph tasks t.id = [] → lf = pd) ∧
        (∀ w ws, buildGraph tasks t.id = w :: ws →
          lf = (ws.map (fun v => getNum ((computeCPM tasks ms).LS v))).foldl min
            (getNum ((computeCPM tasks ms).LS w))) := by
  rcases hacyc with ⟨r, hr⟩
  rcases projectDuration_char tasks hu hd ms hms with ⟨pdv, hpd, hpd0, hub, hcases⟩
  have hbwd := backwardPass_inv tasks hu hd hc hr hpos ms hms hpd hub
  refine ⟨pdv, by rw [computeCPM_PD]; exact hpd, ?_, ?_⟩
  · -- pd equals the max over the tasks' EF values, clamped at 0
    rw [computeCPM_EF]
    have hcomp := topoSort_complete hu hd hc hr
    obtain ⟨_, hids, _, _⟩ := topoSort_props tasks hu hd
    have h0f : (0 : Int) ≤ (tasks.map (fun t =>
        getNum ((forwardPass (byId tasks) ms (topoSort tasks)).2 t.id))).foldl
          max 0 := le_foldl_max _ _
    have hle1 : ((tasks.map (fun t =>
        getNum ((forwardPass (byId tasks) ms (topoSort tasks)).2 t.id))).foldl
        max 0) ≤ pdv := by
      apply foldl_max_le _ 0 pdv hpd0
      intro x hx
      rcases List.mem_map.mp hx with ⟨t, ht, rfl⟩
      exact hub t.id (hcomp t ht)
    rcases hcases with h0 | ⟨id, hid, hval⟩
    · omega
    · have hge : getNum ((forwardPass (byId tasks) ms (topoSort tasks)).2 id)
          ≤ (tasks.map (fun t =>
            getNum ((forwardPass (byId tasks) ms (topoSort tasks)).2 t.id))).foldl
            max 0 := by
        rcases List.mem_map.mp (hids id hid) with ⟨t, ht, rfl⟩
        exact mem_le_foldl_max _ _ (List.mem_map_of_mem _ ht)
      rw [hval] at hge
      omega
  · intro t ht
    have hmem := topoSort_complete hu hd hc hr t ht
    have hmemrev : t.id ∈ (topoSort tasks).reverse := List.mem_reverse.mpr hmem
    rcases forwardPass_inv tasks hu hd ms hms t.id hmem with
      ⟨t1, es, hbyid1, ht1, htid1, _, hES, hEF, _⟩
    have heq1 : t1 = t := uniqueIds_inj hu ht1 ht htid1
    rw [heq1] at hEF
    rcases hbwd t.id hmemrev with
      ⟨t2, lf, hbyid2, ht2, htid2, _, hLF, hLS, hnil, hcons, _, _⟩
    have heq2 : t2 = t := uniqueIds_inj hu ht2 ht htid2
    rw [heq2] at hLS
    refine ⟨es, lf, by rw [computeCPM_ES]; exact hES,
      by rw [computeCPM_EF]; exact hEF, by rw [computeCPM_LF]; exact hLF,
      by rw [computeCPM_LS]; exact hLS, by ring, hnil, ?_⟩
    intro w ws hws
    rw [computeCPM_LS]
    exact hcons w ws hws

/-- C4: on well-formed acyclic input with non-negative overrides, every task
has present schedule values with 0 ≤ ES, EF ≤ projectDuration, 0 ≤ LS,
LF ≤ projectDuration, and slack = LS − ES ≥ 0. -/
theorem claim_C4_invariants (tasks : List Task) (ms : MSMap)
    (hu : UniqueIds tasks) (hd : DepsNodup tasks) (hc : ClosedDeps tasks)
    (hacyc : ∃ r, Ranked tasks r) (hpos : PosDur tasks) (hms : NonnegMS ms) :
    ∃ pd, (computeCPM tasks ms).projectDuration = some pd ∧ 0 ≤ pd ∧
      ∀ t ∈ tasks, ∃ es ef ls lf sl,
        (computeCPM tasks ms).ES t.id = some (some es) ∧
        (computeCPM tasks ms).EF t.id = some (some ef) ∧
        (computeCPM tasks ms).LS t.id = some (some ls) ∧
        (computeCPM tasks ms).LF t.id = some (some lf) ∧
        (computeCPM tasks ms).slack t.id = some (some sl) ∧
        0 ≤ es ∧ es ≤ ef ∧ ef ≤ pd ∧ 0 ≤ ls ∧ ls ≤ lf ∧ lf ≤ pd ∧
        sl = ls - es ∧ 0 ≤ sl := by
  rcases hacyc with ⟨r, hr⟩
  rcases projectDuration_char tasks hu hd ms hms with ⟨pdv, hpd, hpd0, hub, _⟩
  have hbwd := backwardPass_inv tasks hu hd hc hr hpos ms hms hpd hub
  refine ⟨pdv, by rw [computeCPM_PD]; exact hpd, hpd0, ?_⟩
  intro t ht
  have hmem := topoSort_complete hu hd hc hr t ht
  have hmemrev : t.id ∈ (topoSort tasks).reverse := List.mem_reverse.mpr hmem
  rcases forwardPass_inv tasks hu hd ms hms t.id hmem with
    ⟨t1, es, hbyid1, ht1, htid1, _, hES, hEF, hes⟩
  have heq1 : t1 = t := uniqueIds_inj hu ht1 ht htid1
  rw [heq1] at hEF
  rcases hbwd t.id hmemrev with
    ⟨t2, lf, hbyid2, ht2, htid2, _, hLF, hLS, _, _, hlfub, heflb⟩
  have heq2 : t2 = t := uniqueIds_inj hu ht2 ht htid2
  rw [heq2] at hLS
  have hes0 : 0 ≤ es := by
    rw [hes]
    exact le_trans (le_foldl_max _ 0) (le_max_left _ _)
  have hdur : 1 ≤ t.duration := hpos t ht
  have hefval : getNum ((forwardPass (byId tasks) ms (topoSort tasks)).2 t.id)
      = es + t.duration := by rw [hEF]; rfl
  have heflb' : es + t.duration ≤ lf := by rw [← hefval]; exact heflb
  have hefub : es + t.duration ≤ pdv := by
    rw [← hefval]
    exact hub t.id hmem
  have hslack : (computeCPM tasks ms).slack t.id
      = some (some ((lf - t.duration) - es)) := by
    rw [computeCPM_slack, slackCritical_entry hu ht]
    rw [computeCPM_LS, computeCPM_ES, hLS, hES]
    rfl
  exact ⟨es, es + t.duration, lf - t.duration, lf, (lf - t.duration) - es,
    by rw [computeCPM_ES]; exact hES, by rw [computeCPM_EF]; exact hEF,
    by rw [computeCPM_LS]; exact hLS, by rw [computeCPM_LF]; exact hLF, hslack,
    hes0, by omega, hefub, by omega, by omega, hlfub, rfl, by omega⟩

/-- C5: on a list with unique ids, set-like deps that all exist, and acyclic
dependencies, `topoSort` returns every task id exactly once, lists every task
after each of its deps, and dequeues the in-degree-0 tasks (those with no
deps) first, in input order. -/
theorem claim_C5_toposort (tasks : List Task) (hu : UniqueIds tasks)
    (hd : DepsNodup tasks) (hc : ClosedDeps tasks)
    (hacyc : ∃ r, Ranked tasks r) :
    (topoSort tasks).Nodup ∧
    (∀ id, id ∈ topoSort tasks ↔ id ∈ idsOf tasks) ∧
    (∀ t ∈ tasks, ∀ d ∈ t.deps, Before (topoSort tasks) d t.id) ∧
    (seedQueue tasks).IsPrefix (topoSort tasks) ∧
    seedQueue tasks = (tasks.filter (fun t => t.deps.isEmpty)).map (·.id) := by
  rcases hacyc with ⟨r, hr⟩
  obtain ⟨hnodup, hids, _, hbefore⟩ := topoSort_props tasks hu hd
  have hcomp := topoSort_complete hu hd hc hr
  refine ⟨hnodup, ?_, ?_, topoSort_seed_prefix tasks, seedQueue_eq hu⟩
  · intro id
    constructor
    · exact hids id
    · intro hid
      rcases List.mem_map.mp hid with ⟨t, ht, rfl⟩
      exact hcomp t ht
  · intro t ht d hdd
    exact hbefore t ht (hcomp t ht) d hdd

/-! ### Claim theorems: edge conditions -/

/-- C7: on the empty task list every copy's schedule is empty, but only the
first copy's (and v2's) `projectDuration` is 0: the second copy in App.tsx
computes `Math.max()` of no arguments, i.e. `-Infinity` (modelled `none`). -/
theorem claim_C7_empty_input (ms : MSMap) :
    (computeCPM [] ms).projectDuration = some 0 ∧
    (computeCPM [] ms).ES = (fun _ => none) ∧
    (computeCPM [] ms).EF = (fun _ => none) ∧
    (computeCPM [] ms).LS = (fun _ => none) ∧
    (computeCPM [] ms).LF = (fun _ => none) ∧
    (computeCPM [] ms).slack = (fun _ => none) ∧
    (computeCPM [] ms).critical = [] ∧
    projectDurationSecondCopy [] ms = none :=
  ⟨rfl, rfl, rfl, rfl, rfl, rfl, rfl, rfl⟩

theorem claim_C7_witness :
    (computeCPM [] msEmpty).projectDuration = some 0 ∧
    projectDurationSecondCopy [] msEmpty = none :=
  ⟨(claim_C7_empty_input msEmpty).1, (claim_C7_empty_input msEmpty).2.2.2.2.2.2.2⟩

/-- A task that declares a nonexistent predecessor id never enters the
topological order. -/
theorem not_in_topoSort_of_missing_dep {tasks : List Task}
    (hu : UniqueIds tasks) (hd : DepsNodup tasks) {t : Task} (ht : t ∈ tasks)
    {d : String} (hdd : d ∈ t.deps) (hmiss : d ∉ idsOf tasks) :
    t.id ∉ topoSort tasks := by
  obtain ⟨_, hids, _, hbefore⟩ := topoSort_props tasks hu hd
  intro hmem
  have hbef := hbefore t ht hmem d hdd
  rcases List.append_of_mem hmem with ⟨pre, suf, hsplit⟩
  have hdpre : d ∈ pre := hbef pre suf hsplit
  have hdord : d ∈ topoSort tasks := by
    rw [hsplit]
    exact List.mem_append.mpr (Or.inl hdpre)
  exact hmiss (hids d hdord)

/-- An id omitted from the topological order gets no ES/EF/LS/LF entry, a
present NaN slack entry, and is never critical. -/
theorem omitted_entries (tasks : List Task) (ms : MSMap) (hu : UniqueIds tasks)
    {t : Task} (ht : t ∈ tasks) (hnot : t.id ∉ topoSort tasks) :
    (computeCPM tasks ms).ES t.id = none ∧
    (computeCPM tasks ms).EF t.id = none ∧
    (computeCPM tasks ms).LS t.id = none ∧
    (computeCPM tasks ms).LF t.id = none ∧
    (computeCPM tasks ms).slack t.id = some none ∧
    t.id ∉ (computeCPM tasks ms).critical := by
  rcases @forwardPass_none (byId tasks) ms _ _ hnot with ⟨hES, hEF⟩
  rcases @backwardPass_none (byId tasks) (buildGraph tasks)
    (projectDurationOf (topoSort tasks)
      (forwardPass (byId tasks) ms (topoSort tasks)).2) _ _ hnot
    with ⟨hLS, hLF⟩
  have hslack : (computeCPM tasks ms).slack t.id = some none := by
    rw [computeCPM_slack, slackCritical_entry hu ht, computeCPM_LS,
      computeCPM_ES, hLS, hES]
    rfl
  refine ⟨by rw [computeCPM_ES]; exact hES, by rw [computeCPM_EF]; exact hEF,
    by rw [computeCPM_LS]; exact hLS, by rw [computeCPM_LF]; exact hLF, hslack, ?_⟩
  intro hcrit
  rw [computeCPM_critical] at hcrit
  rcases (critical_mem_iff tasks _ _ t.id).mp hcrit with ⟨t', ht', htid', hz⟩
  have heq : t' = t := uniqueIds_inj hu ht' ht htid'
  rw [heq, computeCPM_LS, computeCPM_ES, hLS, hES] at hz
  exact Option.noConfusion hz

/-- C8 counterexample: a task whose deps name a nonexistent id is NOT still
scheduled — on `[A (duration 2, deps [M])]` with no task `M`, the order is
empty and `A` gets no ES entry at all, contradicting the claimed
`ES = max(0, override) = 0`. -/
theorem claim_C8_counterexample :
    topoSort [⟨"A", 2, ["M"]⟩] = [] ∧
    (computeCPM [⟨"A", 2, ["M"]⟩] msEmpty).ES "A" = none ∧
    ¬ (computeCPM [⟨"A", 2, ["M"]⟩] msEmpty).ES "A" = some (some 0) := by
  refine ⟨rfl, rfl, ?_⟩
  intro h
  have : (none : Option JsNum) = some (some 0) := h
  exact Option.noConfusion this

/-- C8 amended: a task whose deps reference a nonexistent id is omitted from
the topological order and receives no schedule entries (its slack entry is
NaN and it is never critical); it is not scheduled at all. -/
theorem claim_C8_amended (tasks : List Task) (ms : MSMap)
    (hu : UniqueIds tasks) (hd : DepsNodup tasks) {t : Task} (ht : t ∈ tasks)
    {d : String} (hdd : d ∈ t.deps) (hmiss : d ∉ idsOf tasks) :
    t.id ∉ topoSort tasks ∧
    (computeCPM tasks ms).ES t.id = none ∧
    (computeCPM tasks ms).EF t.id = none ∧
    (computeCPM tasks ms).LS t.id = none ∧
    (computeCPM tasks ms).LF t.id = none ∧
    (computeCPM tasks ms).slack t.id = some none ∧
    t.id ∉ (computeCPM tasks ms).critical := by
  have hnot := not_in_topoSort_of_missing_dep hu hd ht hdd hmiss
  exact ⟨hnot, omitted_entries tasks ms hu ht hnot⟩

theorem claim_C8_amended_witness :
    ("M" ∉ idsOf [⟨"A", 2, ["M"]⟩, ⟨"B", 1, []⟩]) ∧
    ("A" ∉ topoSort [⟨"A", 2, ["M"]⟩, ⟨"B", 1, []⟩] ∧
      (computeCPM [⟨"A", 2, ["M"]⟩, ⟨"B", 1, []⟩] msEmpty).ES "A" = none ∧
      (computeCPM [⟨"A", 2, ["M"]⟩, ⟨"B", 1, []⟩] msEmpty).EF "A" = none ∧
      (computeCPM [⟨"A", 2, ["M"]⟩, ⟨"B", 1, []⟩] msEmpty).LS "A" = none ∧
      (computeCPM [⟨"A", 2, ["M"]⟩, ⟨"B", 1, []⟩] msEmpty).LF "A" = none ∧
      (computeCPM [⟨"A", 2, ["M"]⟩, ⟨"B", 1, []⟩] msEmpty).slack "A" = some none ∧
      "A" ∉ (computeCPM [⟨"A", 2, ["M"]⟩, ⟨"B", 1, []⟩] msEmpty).critical) :=
  ⟨by decide,
   claim_C8_amended [⟨"A", 2, ["M"]⟩, ⟨"B", 1, []⟩] msEmpty (by decide) (by decide)
     (List.mem_cons_self _ _) (List.mem_cons_self _ _) (by decide)⟩

/-- C10: a task omitted from the topological order (cycle or dangling
predecessor) gets no ES/EF/LS/LF entry, yet its slack entry is present and
is not a number, and it is never a member of the critical set. -/
theorem claim_C10_omitted_tasks (tasks : List Task) (ms : MSMap)
    (hu : UniqueIds tasks) {t : Task} (ht : t ∈ tasks)
    (hnot : t.id ∉ topoSort tasks) :
    (computeCPM tasks ms).ES t.id = none ∧
    (computeCPM tasks ms).EF t.id = none ∧
    (computeCPM tasks ms).LS t.id = none ∧
    (computeCPM tasks ms).LF t.id = none ∧
    (computeCPM tasks ms).slack t.id = some none ∧
    t.id ∉ (computeCPM tasks ms).critical :=
  omitted_entries tasks ms hu ht hnot

theorem claim_C10_witness :
    ("A" ∉ topoSort [⟨"A", 1, ["B"]⟩, ⟨"B", 1, ["A"]⟩]) ∧
    ((computeCPM [⟨"A", 1, ["B"]⟩, ⟨"B", 1, ["A"]⟩] msEmpty).ES "A" = none ∧
     (computeCPM [⟨"A", 1, ["B"]⟩, ⟨"B", 1, ["A"]⟩] msEmpty).EF "A" = none ∧
     (computeCPM [⟨"A", 1, ["B"]⟩, ⟨"B", 1, ["A"]⟩] msEmpty).LS "A" = none ∧
     (computeCPM [⟨"A", 1, ["B"]⟩, ⟨"B", 1, ["A"]⟩] msEmpty).LF "A" = none ∧
     (computeCPM [⟨"A", 1, ["B"]⟩, ⟨"B", 1, ["A"]⟩] msEmpty).slack "A" = some none ∧
     "A" ∉ (computeCPM [⟨"A", 1, ["B"]⟩, ⟨"B", 1, ["A"]⟩] msEmpty).critical) :=
  ⟨by decide,
   claim_C10_omitted_tasks [⟨"A", 1, ["B"]⟩, ⟨"B", 1, ["A"]⟩] msEmpty (by decide)
     (List.mem_cons_self _ _) (by decide)⟩

theorem msEmpty_nonneg : NonnegMS msEmpty := fun _ _ h => nomatch h

theorem claim_C1_witness :
    UniqueIds scenario1 ∧
    (∀ t ∈ scenario1, ∃ es,
      (computeCPM scenario1 msEmpty).ES t.id = some (some es) ∧
      (computeCPM scenario1 msEmpty).EF t.id = some (some (es + t.duration)) ∧
      es = max ((t.deps.map (fun d =>
        getNum ((computeCPM scenario1 msEmpty).EF d))).foldl max 0)
        ((msEmpty t.id).getD 0) ∧
      (t.deps = [] → msEmpty t.id = none → es = 0)) :=
  ⟨by decide,
   claim_C1_forward_pass scenario1 msEmpty (by decide) (by decide) (by decide)
     ⟨rank1, by decide⟩ msEmpty_nonneg⟩

theorem claim_C2_witness :
    PosDur scenario1 ∧
    (∃ pd, (computeCPM scenario1 msEmpty).projectDuration = some pd ∧
      pd = max ((scenario1.map (fun t =>
        getNum ((computeCPM scenario1 msEmpty).EF t.id))).foldl max 0) 0 ∧
      ∀ t ∈ scenario1, ∃ es lf,
        (computeCPM scenario1 msEmpty).ES t.id = some (some es) ∧
        (computeCPM scenario1 msEmpty).EF t.id = some (some (es + t.duration)) ∧
        (computeCPM scenario1 msEmpty).LF t.id = some (some lf) ∧
        (computeCPM scenario1 msEmpty).LS t.id = some (some (lf - t.duration)) ∧
        lf = (lf - t.duration) + t.duration ∧
        (buildGraph scenario1 t.id = [] → lf = pd) ∧
        (∀ w ws, buildGraph scenario1 t.id = w :: ws →
          lf = (ws.map (fun v =>
            getNum ((computeCPM scenario1 msEmpty).LS v))).foldl min
            (getNum ((computeCPM scenario1 msEmpty).LS w)))) :=
  ⟨by decide,
   claim_C2_backward_pass scenario1 msEmpty (by decide) (by decide) (by decide)
     ⟨rank1, by decide⟩ (by decide) msEmpty_nonneg⟩

theorem claim_C4_witness :
    PosDur scenario1 ∧
    (∃ pd, (computeCPM scenario1 msEmpty).projectDuration = some pd ∧ 0 ≤ pd ∧
      ∀ t ∈ scenario1, ∃ es ef ls lf sl,
        (computeCPM scenario1 msEmpty).ES t.id = some (some es) ∧
        (computeCPM scenario1 msEmpty).EF t.id = some (some ef) ∧
        (computeCPM scenario1 msEmpty).LS t.id = some (some ls) ∧
        (computeCPM scenario1 msEmpty).LF t.id = some (some lf) ∧
        (computeCPM scenario1 msEmpty).slack t.id = some (some sl) ∧
        0 ≤ es ∧ es ≤ ef ∧ ef ≤ pd ∧ 0 ≤ ls ∧ ls ≤ lf ∧ lf ≤ pd ∧
        sl = ls - es ∧ 0 ≤ sl) :=
  ⟨by decide,
   claim_C4_invariants scenario1 msEmpty (by decide) (by decide) (by decide)
     ⟨rank1, by decide⟩ (by decide) msEmpty_nonneg⟩

theorem claim_C5_witness :
    UniqueIds scenario1 ∧
    ((topoSort scenario1).Nodup ∧
     (∀ id, id ∈ topoSort scenario1 ↔ id ∈ idsOf scenario1) ∧
     (∀ t ∈ scenario1, ∀ d ∈ t.deps, Before (topoSort scenario1) d t.id) ∧
     (seedQueue scenario1).IsPrefix (topoSort scenario1) ∧
     seedQueue scenario1
       = (scenario1.filter (fun t => t.deps.isEmpty)).map (·.id)) :=
  ⟨by decide,
   claim_C5_toposort scenario1 (by decide) (by decide) (by decide)
     ⟨rank1, by decide⟩⟩

/-! ### Drag propagation: termination and frame lemmas -/

theorem le_foldl_maxN (l : List Nat) (a : Nat) : a ≤ l.foldl max a := by
  induction l generalizing a with
  | nil => simp
  | cons x xs ih => exact le_trans (le_max_left a x) (ih (max a x))

theorem mem_le_foldl_maxN (l : List Nat) :
    ∀ (a : Nat) {x : Nat}, x ∈ l → x ≤ l.foldl max a := by
  induction l with
  | nil => intro a x hx; cases hx
  | cons y ys ih =>
    intro a x hx
    rcases List.mem_cons.mp hx with rfl | h
    · exact le_trans (le_max_right a x) (le_foldl_maxN ys (max a x))
    · exact ih (max a y) h

theorem rank_le_maxRank {tasks : List Task} {r : String → Nat} {v : String}
    (hv : v ∈ idsOf tasks) : r v ≤ maxRank tasks r := by
  rcases List.mem_map.mp hv with ⟨t, ht, rfl⟩
  exact mem_le_foldl_maxN _ 0 (List.mem_map_of_mem (fun t => r t.id) ht)

theorem mem_succsFilter {tasks : List Task} {u w : String} :
    w ∈ succsFilter tasks u ↔ ∃ t ∈ tasks, w = t.id ∧ u ∈ t.deps := by
  unfold succsFilter
  constructor
  · intro h
    rcases List.mem_map.mp h with ⟨t, ht, rfl⟩
    exact ⟨t, List.mem_of_mem_filter ht, rfl, by
      have := List.of_mem_filter ht
      simpa using this⟩
  · rintro ⟨t, ht, rfl, hdep⟩
    exact List.mem_map_of_mem _ (List.mem_filter.mpr ⟨ht, by simpa using hdep⟩)

theorem succsFilter_ids {tasks : List Task} {u w : String}
    (h : w ∈ succsFilter tasks u) : w ∈ idsOf tasks := by
  rcases mem_succsFilter.mp h with ⟨t, ht, rfl, _⟩
  exact List.mem_map_of_mem _ ht

theorem succsFilter_rank {tasks : List Task} {r : String → Nat}
    (hr : Ranked tasks r) {u w : String} (h : w ∈ succsFilter tasks u) :
    r u < r w := by
  rcases mem_succsFilter.mp h with ⟨t, ht, rfl, hdep⟩
  exact hr t ht u hdep

/-- With unique ids, `find` returns the member task. -/
theorem findTask_eq_some {tasks : List Task} (hu : UniqueIds tasks) {t : Task}
    (ht : t ∈ tasks) : findTask tasks t.id = some t := by
  induction tasks with
  | nil => cases ht
  | cons t' ts ih =>
    rcases uniqueIds_cons hu with ⟨htid, hu'⟩
    rcases List.mem_cons.mp ht with rfl | hmem
    · unfold findTask
      simp [List.find?]
    · have hne : t'.id ≠ t.id := by
        intro h
        exact htid (h ▸ List.mem_map_of_mem _ hmem)
      unfold findTask at ih ⊢
      rw [List.find?_cons_of_neg, ih hu' hmem]
      simp [hne]

/-- Termination of `propLoop` by ranks: recursion strictly climbs the rank
order, so any fuel at least `maxRank − ρ` suffices when all pending
successors have rank above `ρ`. -/
theorem propLoop_isSome (tasks : List Task) (preES : JMap) {r : String → Nat}
    (hr : Ranked tasks r) :
    ∀ (fuel : Nat), ∀ (l : List String) (m : MSMap) (ρ : Nat),
      (∀ v ∈ l, v ∈ idsOf tasks) → (∀ v ∈ l, ρ < r v) →
      maxRank tasks r ≤ fuel + ρ →
      (propLoop tasks preES fuel l m).isSome := by
  intro fuel
  induction fuel using Nat.strong_induction_on with
  | _ fuel ihf =>
    intro l
    induction l with
    | nil =>
      intro m ρ _ _ _
      rw [propLoop]
      rfl
    | cons v rest ihl =>
      intro m ρ hids hρ hfuel
      have hrest : (propLoop tasks preES fuel rest m).isSome :=
        ihl m ρ (fun w hw => hids w (List.mem_cons_of_mem _ hw))
          (fun w hw => hρ w (List.mem_cons_of_mem _ hw)) hfuel
      rw [propLoop]
      split
      · next n c _ _ =>
        by_cases hlt : c < n
        · rw [if_pos hlt]
          have hvrank : ρ < r v := hρ v (List.mem_cons_self _ _)
          have hvmax : r v ≤ maxRank tasks r :=
            rank_le_maxRank (hids v (List.mem_cons_self _ _))
          have hfz : fuel ≠ 0 := by
            intro h
            rw [h] at hfuel
            omega
          rw [dif_neg hfz]
          have hnested : (propLoop tasks preES (fuel - 1)
              (succsFilter tasks v) (mupd m v n)).isSome := by
            refine ihf (fuel - 1) (by omega) (succsFilter tasks v)
              (mupd m v n) (r v) (fun w hw => succsFilter_ids hw)
              (fun w hw => succsFilter_rank hr hw) (by omega)
          rcases Option.isSome_iff_exists.mp hnested with ⟨m₁, hm₁⟩
          rw [hm₁]
          exact ihl m₁ ρ (fun w hw => hids w (List.mem_cons_of_mem _ hw))
            (fun w hw => hρ w (List.mem_cons_of_mem _ hw)) hfuel
        · rw [if_neg hlt]
          exact hrest
      · exact hrest

/-- Frame: `propLoop` never touches a key whose rank is at most `ρ` when
every pending id has rank above `ρ` (every map update targets a pending id
or a strict successor of one, all of strictly larger rank). -/
theorem propLoop_frame (tasks : List Task) (preES : JMap) {r : String → Nat}
    (hr : Ranked tasks r) :
    ∀ (fuel : Nat), ∀ (l : List String) (m m' : MSMap) (ρ : Nat),
      (∀ v ∈ l, ρ < r v) →
      propLoop tasks preES fuel l m = some m' →
      ∀ k, r k ≤ ρ → m' k = m k := by
  intro fuel
  induction fuel using Nat.strong_induction_on with
  | _ fuel ihf =>
    intro l
    induction l with
    | nil =>
      intro m m' ρ _ hsome k _
      rw [propLoop] at hsome
      cases hsome
      rfl
    | cons v rest ihl =>
      intro m m' ρ hρ hsome k hk
      rw [propLoop] at hsome
      split at hsome
      · next n c _ _ =>
        by_cases hlt : c < n
        · rw [if_pos hlt] at hsome
          by_cases hfz : fuel = 0
          · rw [dif_pos hfz] at hsome
            cases hsome
          · rw [dif_neg hfz] at hsome
            rcases hnest : propLoop tasks preES (fuel - 1)
                (succsFilter tasks v) (mupd m v n) with _ | m₁
            · rw [hnest] at hsome
              cases hsome
            · rw [hnest] at hsome
              have hvrank : ρ < r v := hρ v (List.mem_cons_self _ _)
              have h1 : m' k = m₁ k :=
                ihl m₁ m' ρ (fun w hw => hρ w (List.mem_cons_of_mem _ hw))
                  hsome k hk
              have h2 : m₁ k = mupd m v n k :=
                ihf (fuel - 1) (by omega) (succsFilter tasks v)
                  (mupd m v n) m₁ (r v)
                  (fun w hw => succsFilter_rank hr hw) hnest k (by omega)
              have h3 : mupd m v n k = m k := by
                unfold mupd
                rw [if_neg]
                intro h
                rw [h] at hk
                omega
              rw [h1, h2, h3]
        · rw [if_neg hlt] at hsome
          exact ihl m m' ρ (fun w hw => hρ w (List.mem_cons_of_mem _ hw))
            hsome k hk
      · exact ihl m m' ρ (fun w hw => hρ w (List.mem_cons_of_mem _ hw))
          hsome k hk

/-! ### Pointwise agreement of the structural propagation twins -/

theorem propLoopS_eq (tasks : List Task) (preES : JMap) :
    ∀ (fuel : Nat) (l : List String) (m : MSMap),
      propLoopS tasks preES fuel l m = propLoop tasks preES fuel l m := by
  intro fuel
  induction fuel with
  | zero =>
    intro l
    induction l with
    | nil =>
      intro m
      rw [propLoop]
      rfl
    | cons v rest ihl =>
      intro m
      rw [propLoop]
      show propInner tasks preES none (v :: rest) m = _
      simp only [propInner]
      split
      · next n c _ _ =>
        by_cases hlt : c < n
        · rw [if_pos hlt, if_pos hlt]
          simp
        · rw [if_neg hlt, if_neg hlt]
          exact ihl m
      · exact ihl m
  | succ fuel ihf =>
    intro l
    induction l with
    | nil =>
      intro m
      rw [propLoop]
      rfl
    | cons v rest ihl =>
      intro m
      rw [propLoop]
      show propInner tasks preES (some (propLoopS tasks preES fuel)) (v :: rest) m = _
      simp only [propInner]
      split
      · next n c _ _ =>
        by_cases hlt : c < n
        · rw [if_pos hlt, if_pos hlt, dif_neg (Nat.succ_ne_zero fuel)]
          rw [Nat.add_sub_cancel, ihf (succsFilter tasks v) (mupd m v n)]
          rcases propLoop tasks preES fuel (succsFilter tasks v) (mupd m v n) with _ | m₁
          · rfl
          · exact ihl m₁
        · rw [if_neg hlt, if_neg hlt]
          exact ihl m
      · exact ihl m

theorem propLoopCountS_eq (tasks : List Task) (preES : JMap) :
    ∀ (fuel : Nat) (l : List String) (m : MSMap) (cnt : String → Nat),
      propLoopCountS tasks preES fuel l m cnt
        = propLoopCount tasks preES fuel l m cnt := by
  intro fuel
  induction fuel with
  | zero =>
    intro l
    induction l with
    | nil =>
      intro m cnt
      rw [propLoopCount]
      rfl
    | cons v rest ihl =>
      intro m cnt
      rw [propLoopCount]
      show propInnerCount tasks preES none (v :: rest) m cnt = _
      simp only [propInnerCount]
      split
      · next n c _ _ =>
        by_cases hlt : c < n
        · rw [if_pos hlt, if_pos hlt]
          simp
        · rw [if_neg hlt, if_neg hlt]
          exact ihl m cnt
      · exact ihl m cnt
  | succ fuel ihf =>
    intro l
    induction l with
    | nil =>
      intro m cnt
      rw [propLoopCount]
      rfl
    | cons v rest ihl =>
      intro m cnt
      rw [propLoopCount]
      show propInnerCount tasks preES (some (propLoopCountS tasks preES fuel))
        (v :: rest) m cnt = _
      simp only [propInnerCount]
      split
      · next n c _ _ =>
        by_cases hlt : c < n
        · rw [if_pos hlt, if_pos hlt, dif_neg (Nat.succ_ne_zero fuel)]
          rw [Nat.add_sub_cancel, ihf (succsFilter tasks v) (mupd m v n)
            (fun x => if x = v then cnt v + 1 else cnt x)]
          rcases propLoopCount tasks preES fuel (succsFilter tasks v) (mupd m v n)
              (fun x => if x = v then cnt v + 1 else cnt x) with _ | p
          · rfl
          · exact ihl p.1 p.2
        · rw [if_neg hlt, if_neg hlt]
          exact ihl m cnt
      · exact ihl m cnt

/-! ### Single-step evaluation lemmas for `propLoopCountS` -/

theorem propLoopCountS_nilStep (tasks : List Task) (preES : JMap) (f : Nat)
    (m : MSMap) (cnt : String → Nat) :
    propLoopCountS tasks preES f [] m cnt = some (m, cnt) := by
  cases f <;> rfl

theorem propLoopCountS_raiseStep (tasks : List Task) (preES : JMap) (f : Nat)
    (v : String) (rest : List String) (m : MSMap) (cnt : String → Nat)
    (n c : Int) (m' : MSMap) (cnt' : String → Nat)
    (res : Option (MSMap × (String → Nat)))
    (hfl : (match List.map (consEF tasks preES m)
        (match findTask tasks v with | some t => t.deps | none => []) with
      | [] => (none : Option JsNum)
      | x :: xs => some (xs.foldl jMax2 x)) = some (some n))
    (hcur : (match m v with
      | some k => (some k : JsNum)
      | none => jVal (preES v)) = some c)
    (hlt : c < n)
    (hnested : propLoopCountS tasks preES f (succsFilter tasks v) (mupd m v n)
      (fun x => if x = v then cnt v + 1 else cnt x) = some (m', cnt'))
    (hrest : propLoopCountS tasks preES (f + 1) rest m' cnt' = res) :
    propLoopCountS tasks preES (f + 1) (v :: rest) m cnt = res := by
  show propInnerCount tasks preES (some (propLoopCountS tasks preES f))
    (v :: rest) m cnt = res
  simp only [propInnerCount]
  split
  · next n1 c1 heq1 heq2 =>
    rw [hfl] at heq1
    rw [hcur] at heq2
    injection heq1 with heq1
    injection heq1 with heq1
    injection heq2 with heq2
    subst heq1
    subst heq2
    rw [if_pos hlt, hnested]
    exact hrest
  · next h =>
    exact absurd (h n c hfl hcur) (fun hf => hf)

theorem propLoopCountS_skipStep (tasks : List Task) (preES : JMap) (f : Nat)
    (v : String) (rest : List String) (m : MSMap) (cnt : String → Nat)
    (n c : Int) (res : Option (MSMap × (String → Nat)))
    (hfl : (match List.map (consEF tasks preES m)
        (match findTask tasks v with | some t => t.deps | none => []) with
      | [] => (none : Option JsNum)
      | x :: xs => some (xs.foldl jMax2 x)) = some (some n))
    (hcur : (match m v with
      | some k => (some k : JsNum)
      | none => jVal (preES v)) = some c)
    (hge : ¬ c < n)
    (hrest : propLoopCountS tasks preES f rest m cnt = res) :
    propLoopCountS tasks preES f (v :: rest) m cnt = res := by
  cases f with
  | zero =>
    show propInnerCount tasks preES none (v :: rest) m cnt = res
    simp only [propInnerCount]
    split
    · next n1 c1 heq1 heq2 =>
      rw [hfl] at heq1
      rw [hcur] at heq2
      injection heq1 with heq1
      injection heq1 with heq1
      injection heq2 with heq2
      subst heq1
      subst heq2
      rw [if_neg hge]
      exact hrest
    · next h =>
      exact absurd (h n c hfl hcur) (fun hf => hf)
  | succ f =>
    show propInnerCount tasks preES (some (propLoopCountS tasks preES f))
      (v :: rest) m cnt = res
    simp only [propInnerCount]
    split
    · next n1 c1 heq1 heq2 =>
      rw [hfl] at heq1
      rw [hcur] at heq2
      injection heq1 with heq1
      injection heq1 with heq1
      injection heq2 with heq2
      subst heq1
      subst heq2
      rw [if_neg hge]
      exact hrest
    · next h =>
      exact absurd (h n c hfl hcur) (fun hf => hf)

/-- The drag entry clamp: under well-formedness, `dragPropagate` writes
`max(max(0, s), max pre-drag EF of the dragged task's predecessors)` into
the dragged task's minStart entry and propagates from there. -/
theorem dragPropagate_eq (tasks : List Task) (ms : MSMap) {r : String → Nat}
    (hu : UniqueIds tasks) (hd : DepsNodup tasks) (hc : ClosedDeps tasks)
    (hr : Ranked tasks r) (hms : NonnegMS ms) {t : Task} (ht : t ∈ tasks)
    (fuel : Nat) (s : Int) :
    dragPropagate tasks (computeCPM tasks ms) ms fuel t.id s
      = propagate tasks (computeCPM tasks ms).ES fuel
          (mupd ms t.id (max (max 0 s) ((t.deps.map (fun d =>
            getNum ((computeCPM tasks ms).EF d))).foldl max 0))) t.id := by
  have hpres : ∀ d ∈ t.deps, ∃ v, (computeCPM tasks ms).EF d = some (some v) := by
    intro d hdd
    rcases List.mem_map.mp (hc t ht d hdd) with ⟨t', ht', rfl⟩
    have htopo : t'.id ∈ topoSort tasks := topoSort_complete hu hd hc hr t' ht'
    rcases forwardPass_inv tasks hu hd ms hms t'.id htopo with
      ⟨t'', es, _, _, _, _, _, hEF, _⟩
    exact ⟨es + t''.duration, by rw [computeCPM_EF]; exact hEF⟩
  have hj := jMax2_predEF (computeCPM tasks ms).EF t.deps (max 0 s) hpres
    (le_max_left 0 s)
  have hstep : dragPropagate tasks (computeCPM tasks ms) ms fuel t.id s
      = match predEF (computeCPM tasks ms).EF t.deps with
        | some e => propagate tasks (computeCPM tasks ms).ES fuel
            (mupd ms t.id (max (max 0 s) e)) t.id
        | none => none := by
    unfold dragPropagate
    rw [findTask_eq_some hu ht]
    rfl
  rcases hpe : predEF (computeCPM tasks ms).EF t.deps with _ | e
  · rw [hpe] at hj
    cases hj
  · rw [hpe] at hj
    have he : max e (max 0 s)
        = max ((t.deps.map (fun d =>
            getNum ((computeCPM tasks ms).EF d))).foldl max 0) (max 0 s) := by
      have hred : jMax2 (some e) (some (max 0 s)) = some (max e (max 0 s)) := rfl
      rw [hred] at hj
      exact Option.some.inj hj
    have h2 : max (max 0 s) e
        = max (max 0 s) ((t.deps.map (fun d =>
            getNum ((computeCPM tasks ms).EF d))).foldl max 0) := by
      rw [max_comm (max (0:Int) s) e, he, max_comm]
    rw [hstep, hpe]
    show propagate tasks (computeCPM tasks ms).ES fuel
      (mupd ms t.id (max (max 0 s) e)) t.id = _
    rw [h2]

/-- **C3** (drag propagation).  First conjunct: for every well-formed acyclic
input with enough fuel, the drag entry point pins the dragged task's minStart
entry to its tentative start `s` clamped below by `0` and by the maximum
pre-drag EF over its predecessors (the propagation never rewrites the dragged
task's own entry, whose rank is below every propagated successor).  Second
conjunct: the spec's concrete scenario — dragging B of scenario 1 from start
4 to 6 yields the minStart map `{B: 6, D: 9, E: 14}` (A and C untouched) and
re-running `computeCPM` on it gives project duration 17. -/
theorem claim_C3_drag_propagation (tasks : List Task) (ms : MSMap)
    (r : String → Nat) (hu : UniqueIds tasks) (hd : DepsNodup tasks)
    (hc : ClosedDeps tasks) (hr : Ranked tasks r) (hms : NonnegMS ms)
    (t : Task) (ht : t ∈ tasks) (s : Int) (fuel : Nat)
    (hfuel : maxRank tasks r ≤ fuel) :
    (∃ m', dragPropagate tasks (computeCPM tasks ms) ms fuel t.id s = some m' ∧
      m' t.id = some (max (max 0 s) ((t.deps.map (fun d =>
        getNum ((computeCPM tasks ms).EF d))).foldl max 0))) ∧
    (dragPropagate scenario1 (computeCPM scenario1 msEmpty) msEmpty 100 "B" 6).map
        (fun m => (m "A", m "B", m "C", m "D", m "E",
          (computeCPM scenario1 m).projectDuration))
      = some (none, some 6, none, some 9, some 14, some 17) := by
  constructor
  · rw [dragPropagate_eq tasks ms hu hd hc hr hms ht fuel s]
    have hsome := propLoop_isSome tasks (computeCPM tasks ms).ES hr fuel
      (succsFilter tasks t.id)
      (mupd ms t.id (max (max 0 s) ((t.deps.map (fun d =>
        getNum ((computeCPM tasks ms).EF d))).foldl max 0)))
      (r t.id) (fun w hw => succsFilter_ids hw)
      (fun w hw => succsFilter_rank hr hw) (by omega)
    rcases Option.isSome_iff_exists.mp hsome with ⟨m', hm'⟩
    refine ⟨m', hm', ?_⟩
    have hframe := propLoop_frame tasks (computeCPM tasks ms).ES hr fuel
      (succsFilter tasks t.id)
      (mupd ms t.id (max (max 0 s) ((t.deps.map (fun d =>
        getNum ((computeCPM tasks ms).EF d))).foldl max 0)))
      m' (r t.id) (fun w hw => succsFilter_rank hr hw) hm' t.id (le_refl _)
    rw [hframe]
    unfold mupd
    rw [if_pos rfl]
  · have h1 : dragPropagate scenario1 (computeCPM scenario1 msEmpty) msEmpty
        100 "B" 6
        = propagate scenario1 (computeCPM scenario1 msEmpty).ES 100
            (mupd msEmpty "B" 6) "B" := rfl
    have h2 : propagate scenario1 (computeCPM scenario1 msEmpty).ES 100
          (mupd msEmpty "B" 6) "B"
        = propLoopS scenario1 (computeCPM scenario1 msEmpty).ES 100
            (succsFilter scenario1 "B") (mupd msEmpty "B" 6) :=
      (propLoopS_eq scenario1 (computeCPM scenario1 msEmpty).ES 100
        (succsFilter scenario1 "B") (mupd msEmpty "B" 6)).symm
    rw [h1, h2]
    rfl

theorem claim_C3_witness :
    UniqueIds scenario1 ∧
    ((∃ m', dragPropagate scenario1 (computeCPM scenario1 msEmpty) msEmpty 100
        (Task.id ⟨"B", 3, ["A"]⟩) 6 = some m' ∧
      m' (Task.id ⟨"B", 3, ["A"]⟩) = some (max (max 0 6)
        (((Task.deps ⟨"B", 3, ["A"]⟩).map (fun d =>
          getNum ((computeCPM scenario1 msEmpty).EF d))).foldl max 0))) ∧
     (dragPropagate scenario1 (computeCPM scenario1 msEmpty) msEmpty 100
        "B" 6).map (fun m => (m "A", m "B", m "C", m "D", m "E",
          (computeCPM scenario1 m).projectDuration))
      = some (none, some 6, none, some 9, some 14, some 17)) :=
  ⟨by decide,
   claim_C3_drag_propagation scenario1 msEmpty rank1 (by decide) (by decide)
     (by decide) (by decide) msEmpty_nonneg ⟨"B", 3, ["A"]⟩ (by decide) 6 100
     (by decide)⟩

/-! ### C9: the doubling gadget -/

theorem c9s1 :
    propLoopCountS gadget gadgetES 3 ["r"] c9m4 c9c4
      = some (c9m5, c9c5) :=
  propLoopCountS_raiseStep gadget gadgetES 2 "r" [] c9m4 c9c4
    24 23 c9m5 c9c5 (some (c9m5, c9c5))
    (by decide) (by decide) (by decide) (propLoopCountS_nilStep gadget gadgetES 2 c9m5 c9c5) (propLoopCountS_nilStep gadget gadgetES 3 c9m5 c9c5)

theorem c9s2 :
    propLoopCountS gadget gadgetES 4 ["c"] c9m3 c9c3
      = some (c9m5, c9c5) :=
  propLoopCountS_raiseStep gadget gadgetES 3 "c" [] c9m3 c9c3
    23 9 c9m5 c9c5 (some (c9m5, c9c5))
    (by decide) (by decide) (by decide) c9s1 (propLoopCountS_nilStep gadget gadgetES 4 c9m5 c9c5)

theorem c9s3 :
    propLoopCountS gadget gadgetES 4 ["r", "c"] c9m2 c9c2
      = some (c9m5, c9c5) :=
  propLoopCountS_raiseStep gadget gadgetES 3 "r" ["c"] c9m2 c9c2
    23 10 c9m3 c9c3 (some (c9m5, c9c5))
    (by decide) (by decide) (by decide) (propLoopCountS_nilStep gadget gadgetES 3 c9m3 c9c3) c9s2

theorem c9s4 :
    propLoopCountS gadget gadgetES 2 ["r"] c9m9 c9c9
      = some (c9m10, c9c10) :=
  propLoopCountS_raiseStep gadget gadgetES 1 "r" [] c9m9 c9c9
    26 25 c9m10 c9c10 (some (c9m10, c9c10))
    (by decide) (by decide) (by decide) (propLoopCountS_nilStep gadget gadgetES 1 c9m10 c9c10) (propLoopCountS_nilStep gadget gadgetES 2 c9m10 c9c10)

theorem c9s5 :
    propLoopCountS gadget gadgetES 3 ["c"] c9m8 c9c8
      = some (c9m10, c9c10) :=
  propLoopCountS_raiseStep gadget gadgetES 2 "c" [] c9m8 c9c8
    25 23 c9m10 c9c10 (some (c9m10, c9c10))
    (by decide) (by decide) (by decide) c9s4 (propLoopCountS_nilStep gadget gadgetES 3 c9m10 c9c10)

theorem c9s6 :
    propLoopCountS gadget gadgetES 3 ["r", "c"] c9m7 c9c7
      = some (c9m10, c9c10) :=
  propLoopCountS_raiseStep gadget gadgetES 2 "r" ["c"] c9m7 c9c7
    25 24 c9m8 c9c8 (some (c9m10, c9c10))
    (by decide) (by decide) (by decide) (propLoopCountS_nilStep gadget gadgetES 2 c9m8 c9c8) c9s5

theorem c9s7 :
    propLoopCountS gadget gadgetES 4 ["q"] c9m6 c9c6
      = some (c9m10, c9c10) :=
  propLoopCountS_raiseStep gadget gadgetES 3 "q" [] c9m6 c9c6
    24 22 c9m10 c9c10 (some (c9m10, c9c10))
    (by decide) (by decide) (by decide) c9s6 (propLoopCountS_nilStep gadget gadgetES 4 c9m10 c9c10)

theorem c9s8 :
    propLoopCountS gadget gadgetES 5 ["b"] c9m5 c9c5
      = some (c9m10, c9c10) :=
  propLoopCountS_raiseStep gadget gadgetES 4 "b" [] c9m5 c9c5
    22 6 c9m10 c9c10 (some (c9m10, c9c10))
    (by decide) (by decide) (by decide) c9s7 (propLoopCountS_nilStep gadget gadgetES 5 c9m10 c9c10)

theorem c9s9 :
    propLoopCountS gadget gadgetES 5 ["q", "b"] c9m1 c9c1
      = some (c9m10, c9c10) :=
  propLoopCountS_raiseStep gadget gadgetES 4 "q" ["b"] c9m1 c9c1
    22 8 c9m5 c9c5 (some (c9m10, c9c10))
    (by decide) (by decide) (by decide) c9s3 c9s8

theorem c9s10 :
    propLoopCountS gadget gadgetES 2 ["r"] c9m15 c9c15
      = some (c9m16, c9c16) :=
  propLoopCountS_raiseStep gadget gadgetES 1 "r" [] c9m15 c9c15
    28 27 c9m16 c9c16 (some (c9m16, c9c16))
    (by decide) (by decide) (by decide) (propLoopCountS_nilStep gadget gadgetES 1 c9m16 c9c16) (propLoopCountS_nilStep gadget gadgetES 2 c9m16 c9c16)

theorem c9s11 :
    propLoopCountS gadget gadgetES 3 ["c"] c9m14 c9c14
      = some (c9m16, c9c16) :=
  propLoopCountS_raiseStep gadget gadgetES 2 "c" [] c9m14 c9c14
    27 25 c9m16 c9c16 (some (c9m16, c9c16))
    (by decide) (by decide) (by decide) c9s10 (propLoopCountS_nilStep gadget gadgetES 3 c9m16 c9c16)

theorem c9s12 :
    propLoopCountS gadget gadgetES 3 ["r", "c"] c9m13 c9c13
      = some (c9m16, c9c16) :=
  propLoopCountS_raiseStep gadget gadgetES 2 "r" ["c"] c9m13 c9c13
    27 26 c9m14 c9c14 (some (c9m16, c9c16))
    (by decide) (by decide) (by decide) (propLoopCountS_nilStep gadget gadgetES 2 c9m14 c9c14) c9s11

theorem c9s13 :
    propLoopCountS gadget gadgetES 1 ["r"] c9m20 c9c20
      = some (c9m21, c9c21) :=
  propLoopCountS_raiseStep gadget gadgetES 0 "r" [] c9m20 c9c20
    30 29 c9m21 c9c21 (some (c9m21, c9c21))
    (by decide) (by decide) (by decide) (propLoopCountS_nilStep gadget gadgetES 0 c9m21 c9c21) (propLoopCountS_nilStep gadget gadgetES 1 c9m21 c9c21)

theorem c9s14 :
    propLoopCountS gadget gadgetES 2 ["c"] c9m19 c9c19
      = some (c9m21, c9c21) :=
  propLoopCountS_raiseStep gadget gadgetES 1 "c" [] c9m19 c9c19
    29 27 c9m21 c9c21 (some (c9m21, c9c21))
    (by decide) (by decide) (by decide) c9s13 (propLoopCountS_nilStep gadget gadgetES 2 c9m21 c9c21)

theorem c9s15 :
    propLoopCountS gadget gadgetES 2 ["r", "c"] c9m18 c9c18
      = some (c9m21, c9c21) :=
  propLoopCountS_raiseStep gadget gadgetES 1 "r" ["c"] c9m18 c9c18
    29 28 c9m19 c9c19 (some (c9m21, c9c21))
    (by decide) (by decide) (by decide) (propLoopCountS_nilStep gadget gadgetES 1 c9m19 c9c19) c9s14

theorem c9s16 :
    propLoopCountS gadget gadgetES 3 ["q"] c9m17 c9c17
      = some (c9m21, c9c21) :=
  propLoopCountS_raiseStep gadget gadgetES 2 "q" [] c9m17 c9c17
    28 26 c9m21 c9c21 (some (c9m21, c9c21))
    (by decide) (by decide) (by decide) c9s15 (propLoopCountS_nilStep gadget gadgetES 3 c9m21 c9c21)

theorem c9s17 :
    propLoopCountS gadget gadgetES 4 ["b"] c9m16 c9c16
      = some (c9m21, c9c21) :=
  propLoopCountS_raiseStep gadget gadgetES 3 "b" [] c9m16 c9c16
    26 22 c9m21 c9c21 (some (c9m21, c9c21))
    (by decide) (by decide) (by decide) c9s16 (propLoopCountS_nilStep gadget gadgetES 4 c9m21 c9c21)

theorem c9s18 :
    propLoopCountS gadget gadgetES 4 ["q", "b"] c9m12 c9c12
      = some (c9m21, c9c21) :=
  propLoopCountS_raiseStep gadget gadgetES 3 "q" ["b"] c9m12 c9c12
    26 24 c9m16 c9c16 (some (c9m21, c9c21))
    (by decide) (by decide) (by decide) c9s12 c9s17

theorem c9s19 :
    propLoopCountS gadget gadgetES 5 ["p"] c9m11 c9c11
      = some (c9m21, c9c21) :=
  propLoopCountS_raiseStep gadget gadgetES 4 "p" [] c9m11 c9c11
    25 21 c9m21 c9c21 (some (c9m21, c9c21))
    (by decide) (by decide) (by decide) c9s18 (propLoopCountS_nilStep gadget gadgetES 5 c9m21 c9c21)

theorem c9s20 :
    propLoopCountS gadget gadgetES 6 ["a"] c9m10 c9c10
      = some (c9m21, c9c21) :=
  propLoopCountS_raiseStep gadget gadgetES 5 "a" [] c9m10 c9c10
    21 1 c9m21 c9c21 (some (c9m21, c9c21))
    (by decide) (by decide) (by decide) c9s19 (propLoopCountS_nilStep gadget gadgetES 6 c9m21 c9c21)

theorem c9s21 :
    propLoopCountS gadget gadgetES 6 ["p", "a"] c9m0 c9c0
      = some (c9m21, c9c21) :=
  propLoopCountS_raiseStep gadget gadgetES 5 "p" ["a"] c9m0 c9c0
    21 5 c9m10 c9c10 (some (c9m21, c9c21))
    (by decide) (by decide) (by decide) c9s9 c9s20

/-- **C9, counterexample.**  On the 7-task acyclic gadget, with minStart
pinning `u` to 20, the propagation enters the successor task `r` eight
times — more than `N = 7` —, refuting "visits each task at most N times".
(`gadgetES` is the engine's own ES schedule for the gadget, checked
pointwise in the first conjunct; the count is computed by the instrumented
copy of the loop.) -/
theorem claim_C9_counterexample :
    (∀ id ∈ idsOf gadget, gadgetES id = (computeCPM gadget msEmpty).ES id) ∧
    (propagateVisits gadget gadgetES 6 (mupd msEmpty "u" 20) "u").map
        (fun p => p.2 "r") = some 8 ∧
    gadget.length = 7 ∧ 7 < 8 := by
  refine ⟨by decide, ?_, rfl, by omega⟩
  have hrun : propagateVisits gadget gadgetES 6 (mupd msEmpty "u" 20) "u"
      = some (c9m21, c9c21) := by
    rw [show propagateVisits gadget gadgetES 6 (mupd msEmpty "u" 20) "u"
        = propLoopCountS gadget gadgetES 6 (succsFilter gadget "u")
            (mupd msEmpty "u" 20) (fun _ => 0) from
      (propLoopCountS_eq gadget gadgetES 6 (succsFilter gadget "u")
        (mupd msEmpty "u" 20) (fun _ => 0)).symm]
    exact c9s21
  rw [hrun]
  show some (c9c21 "r") = some 8
  decide

/-- **C9** (amended).  The true half of the claim: the propagation routine
does terminate on every rank-ordered (acyclic) dependency graph once the
fuel covers the maximum rank, because every nested re-entry strictly
increases the rank of the visited task; the per-task visit bound `N` is
refuted separately by `claim_C9_counterexample`. -/
theorem claim_C9_amended (tasks : List Task) (preES : JMap) (r : String → Nat)
    (hr : Ranked tasks r) (fuel : Nat) (m : MSMap) (u : String)
    (hfuel : maxRank tasks r ≤ fuel + r u) :
    (propagate tasks preES fuel m u).isSome :=
  propLoop_isSome tasks preES hr fuel (succsFilter tasks u) m (r u)
    (fun _ hw => succsFilter_ids hw) (fun _ hw => succsFilter_rank hr hw)
    hfuel

theorem claim_C9_amended_witness :
    Ranked gadget c9rank ∧ maxRank gadget c9rank ≤ 6 + c9rank "u" ∧
    (propagate gadget gadgetES 6 (mupd msEmpty "u" 20) "u").isSome :=
  ⟨by decide, by decide,
   claim_C9_amended gadget gadgetES c9rank (by decide) 6
     (mupd msEmpty "u" 20) "u" (by decide)⟩

/-! ### C6: what propagation writes -/

/-- If a `jMax2`-fold is a number, every participant is a number bounded by
the result. -/
theorem foldl_jMax2_some_bound (xs : List JsNum) :
    ∀ (x : JsNum) {n : Int}, xs.foldl jMax2 x = some n →
      (∃ x0, x = some x0 ∧ x0 ≤ n) ∧
      (∀ y ∈ xs, ∃ y0, y = some y0 ∧ y0 ≤ n) := by
  induction xs with
  | nil =>
    intro x n h
    exact ⟨⟨n, h, le_refl n⟩, fun y hy => absurd hy (List.not_mem_nil y)⟩
  | cons y ys ih =>
    intro x n h
    rw [List.foldl_cons] at h
    rcases ih (jMax2 x y) h with ⟨⟨z, hz, hzn⟩, hall⟩
    rcases x with _ | x0 <;> rcases y with _ | y0
    · cases hz
    · cases hz
    · cases hz
    · have hz' : max x0 y0 = z := Option.some.inj hz
      refine ⟨⟨x0, rfl, by omega⟩, ?_⟩
      intro w hw
      rcases List.mem_cons.mp hw with rfl | hmem
      · exact ⟨y0, rfl, by
          have := le_max_right x0 y0
          omega⟩
      · exact hall w hmem

/-- Evaluation of the conservative EF when the predecessor exists and is
scheduled: `max(current value, ES) + duration`. -/
theorem consEF_eval {tasks : List Task} {preES : JMap} (m : MSMap)
    {p : String} {tp : Task} {esp : Int}
    (hft : findTask tasks p = some tp) (hes : preES p = some (some esp)) :
    consEF tasks preES m p
      = some (max (cvVal preES m p) esp + tp.duration) := by
  unfold consEF cvVal
  cases hmp : m p with
  | none =>
    simp only [hft, hes, hmp]
    rfl
  | some n =>
    simp only [hft, hes, hmp]
    rfl

/-- `consEF` is monotone in the override map with respect to `cvVal`. -/
theorem consEF_mono {tasks : List Task} {preES : JMap} {m₀ m : MSMap}
    (hmono : ∀ k, cvVal preES m₀ k ≤ cvVal preES m k)
    {p : String} {tp : Task} {esp : Int}
    (hft : findTask tasks p = some tp) (hes : preES p = some (some esp))
    {cp cq : Int} (h₀ : consEF tasks preES m₀ p = some cp)
    (h₁ : consEF tasks preES m p = some cq) : cp ≤ cq := by
  rw [consEF_eval m₀ hft hes] at h₀
  rw [consEF_eval m hft hes] at h₁
  have e₀ := Option.some.inj h₀
  have e₁ := Option.some.inj h₁
  have := hmono p
  have h2 : max (cvVal preES m₀ p) esp ≤ max (cvVal preES m p) esp :=
    max_le_max (hmono p) (le_refl esp)
  omega

/-- Packaged forward-pass facts for every existing id, phrased on
`computeCPM`'s fields. -/
theorem forward_sched (tasks : List Task) (hu : UniqueIds tasks)
    (hd : DepsNodup tasks) (hc : ClosedDeps tasks) {r : String → Nat}
    (hr : Ranked tasks r) (ms : MSMap) (hms : NonnegMS ms) :
    ∀ v ∈ idsOf tasks, ∃ tv es, byId tasks v = some tv ∧ tv ∈ tasks ∧
      tv.id = v ∧
      (computeCPM tasks ms).ES v = some (some es) ∧
      (computeCPM tasks ms).EF v = some (some (es + tv.duration)) ∧
      0 ≤ es ∧
      es = max ((tv.deps.map (fun d =>
        getNum ((computeCPM tasks ms).EF d))).foldl max 0) ((ms v).getD 0) := by
  intro v hv
  rcases List.mem_map.mp hv with ⟨t', ht', rfl⟩
  have htopo : t'.id ∈ topoSort tasks := topoSort_complete hu hd hc hr t' ht'
  rcases forwardPass_inv tasks hu hd ms hms t'.id htopo with
    ⟨tv, es, hbyid, htv, hid, _, hES, hEF, hform⟩
  refine ⟨tv, es, hbyid, htv, hid, ?_, ?_, ?_, ?_⟩
  · rw [computeCPM_ES]; exact hES
  · rw [computeCPM_EF]; exact hEF
  · have h0 : (0:Int) ≤ (tv.deps.map (fun d =>
        getNum ((forwardPass (byId tasks) ms (topoSort tasks)).2 d))).foldl
        max 0 := le_foldl_max _ 0
    omega
  · rw [computeCPM_EF]
    rw [hform]

/-- One raise `v ↦ n` performed by the propagation loop preserves
`RaiseInv`: the new entry is the conservative predecessor floor, which
dominates the task's pre-drag ES and every predecessor's conservative EF. -/
theorem raiseInv_update (tasks : List Task) (hu : UniqueIds tasks)
    (hd : DepsNodup tasks) (hc : ClosedDeps tasks) {r : String → Nat}
    (hr : Ranked tasks r) (hpos : PosDur tasks) (ms : MSMap)
    (hms : NonnegMS ms) (u : String) (m₀ : MSMap)
    (hm₀ : ∀ k, k ≠ u → m₀ k = ms k)
    {v : String} (hv : v ∈ idsOf tasks) (hvu : v ≠ u) {m : MSMap}
    (hInv : RaiseInv tasks (computeCPM tasks ms).ES u m₀ m) {n c : Int}
    (hfl : (match List.map (consEF tasks (computeCPM tasks ms).ES m)
        (match findTask tasks v with | some t => t.deps | none => []) with
      | [] => (none : Option JsNum)
      | x :: xs => some (xs.foldl jMax2 x)) = some (some n))
    (hcur : (match m v with
      | some k => (some k : JsNum)
      | none => jVal ((computeCPM tasks ms).ES v)) = some c)
    (hlt : c < n) :
    RaiseInv tasks (computeCPM tasks ms).ES u m₀ (mupd m v n) := by
  obtain ⟨hmono, hdich⟩ := hInv
  obtain ⟨tv, es, hbyid, htv, hid, hESv, hEFv, hes0, hform⟩ :=
    forward_sched tasks hu hd hc hr ms hms v hv
  have hft : findTask tasks v = some tv := by
    have := findTask_eq_some hu htv
    rw [hid] at this
    exact this
  rw [hft] at hfl
  replace hfl : (match List.map (consEF tasks (computeCPM tasks ms).ES m)
      tv.deps with
    | [] => (none : Option JsNum)
    | x :: xs => some (xs.foldl jMax2 x)) = some (some n) := hfl
  -- decompose the floor: every predecessor's conservative EF is ≤ n
  have hdep_le : ∀ p ∈ tv.deps, ∀ cq,
      consEF tasks (computeCPM tasks ms).ES m p = some cq → cq ≤ n := by
    intro p hp cq hcq
    rcases hdeps : List.map (consEF tasks (computeCPM tasks ms).ES m) tv.deps
        with _ | ⟨x, xs⟩
    · rw [hdeps] at hfl
      cases hfl
    · rw [hdeps] at hfl
      have hfold : xs.foldl jMax2 x = some n := Option.some.inj hfl
      have hbound := foldl_jMax2_some_bound xs x hfold
      have hmem : consEF tasks (computeCPM tasks ms).ES m p ∈ x :: xs := by
        rw [← hdeps]
        exact List.mem_map_of_mem _ hp
      rcases List.mem_cons.mp hmem with heq | hmem'
      · rcases hbound.1 with ⟨x0, hx0, hx0n⟩
        rw [← heq, hcq] at hx0
        cases hx0
        exact hx0n
      · rcases hbound.2 _ hmem' with ⟨y0, hy0, hy0n⟩
        rw [hcq] at hy0
        cases hy0
        exact hy0n
  -- per-predecessor schedule facts
  have hdepfacts : ∀ p ∈ tv.deps, ∃ tp esp,
      findTask tasks p = some tp ∧
      (computeCPM tasks ms).ES p = some (some esp) ∧
      (computeCPM tasks ms).EF p = some (some (esp + tp.duration)) ∧
      tp ∈ tasks ∧ 0 ≤ esp := by
    intro p hp
    have hpid : p ∈ idsOf tasks := hc tv htv p hp
    obtain ⟨tp, esp, hbyidp, htp, hidp, hESp, hEFp, hesp0, _⟩ :=
      forward_sched tasks hu hd hc hr ms hms p hpid
    refine ⟨tp, esp, ?_, hESp, hEFp, htp, hesp0⟩
    have := findTask_eq_some hu htp
    rw [hidp] at this
    exact this
  -- each declared predecessor's conservative EF w.r.t. `m` exists
  have hconsm : ∀ p ∈ tv.deps, ∃ cq,
      consEF tasks (computeCPM tasks ms).ES m p = some cq ∧
      cq = max (cvVal (computeCPM tasks ms).ES m p)
        ((((computeCPM tasks ms).ES p).getD (some 0)).getD 0)
        + (match findTask tasks p with
           | some tp => tp.duration
           | none => 0) := by
    intro p hp
    obtain ⟨tp, esp, hftp, hESp, _, _, _⟩ := hdepfacts p hp
    refine ⟨max (cvVal (computeCPM tasks ms).ES m p) esp + tp.duration,
      consEF_eval m hftp hESp, ?_⟩
    rw [hftp, hESp]
    rfl
  -- the current value seen for v is exactly c
  have hcv : cvVal (computeCPM tasks ms).ES m v = c := by
    unfold cvVal
    cases hmv : m v with
    | some c' =>
      rw [hmv] at hcur
      exact Option.some.inj hcur
    | none =>
      rw [hmv] at hcur
      rw [hESv] at hcur
      have : es = c := Option.some.inj hcur
      rw [hESv]
      show getNum (some (some es)) = c
      rw [getNum_some, this]
  constructor
  · -- current values only grow
    intro k
    by_cases hkv : k = v
    · subst hkv
      have hnew : cvVal (computeCPM tasks ms).ES (mupd m k n) k = n := by
        unfold cvVal mupd
        rw [if_pos rfl]
      rw [hnew]
      have := hmono k
      omega
    · have hfr : cvVal (computeCPM tasks ms).ES (mupd m v n) k
          = cvVal (computeCPM tasks ms).ES m k := by
        unfold cvVal mupd
        rw [if_neg hkv]
      rw [hfr]
      exact hmono k
  · -- dichotomy for every key other than the dragged task
    intro k hku
    by_cases hkv : k = v
    · subst hkv
      refine Or.inr ⟨n, tv, by unfold mupd; rw [if_pos rfl], hbyid, ?_, ?_⟩
      · -- pre-drag ES bound
        have hgn : getNum ((computeCPM tasks ms).ES k) = es := by
          rw [hESv]
          rfl
        rw [hgn]
        -- the predecessor-fold part of the ES formula is ≤ n
        have hfold_le : (tv.deps.map (fun d =>
            getNum ((computeCPM tasks ms).EF d))).foldl max 0 ≤ n := by
          have h0n : (0:Int) ≤ n := by
            rcases hdepsnil : tv.deps with _ | ⟨p0, ps⟩
            · rw [hdepsnil] at hfl
              cases hfl
            · have hp0 : p0 ∈ tv.deps := by
                rw [hdepsnil]
                exact List.mem_cons_self _ _
              obtain ⟨cq, hcq, hcqe⟩ := hconsm p0 hp0
              obtain ⟨tp, esp, hftp, hESp, _, htp, hesp0⟩ := hdepfacts p0 hp0
              have hcqn := hdep_le p0 hp0 cq hcq
              rw [consEF_eval m hftp hESp] at hcq
              have he := Option.some.inj hcq
              have hdur := hpos tp htp
              have hle : esp ≤ max (cvVal (computeCPM tasks ms).ES m p0) esp :=
                le_max_right _ _
              omega
          refine foldl_max_le _ 0 n h0n ?_
          intro x hx
          rcases List.mem_map.mp hx with ⟨p, hp, rfl⟩
          obtain ⟨tp, esp, hftp, hESp, hEFp, htp, hesp0⟩ := hdepfacts p hp
          have hgEF : getNum ((computeCPM tasks ms).EF p) = esp + tp.duration := by
            rw [hEFp]
            rfl
          rw [hgEF]
          obtain ⟨cq, hcq, _⟩ := hconsm p hp
          have hcqn := hdep_le p hp cq hcq
          rw [consEF_eval m hftp hESp] at hcq
          have he := Option.some.inj hcq
          have hle : esp ≤ max (cvVal (computeCPM tasks ms).ES m p) esp :=
            le_max_right _ _
          omega
        cases hmv : m k with
        | none =>
          -- current value is the schedule ES itself, and it was exceeded
          have hesc : es = c := by
            unfold cvVal at hcv
            rw [hmv, hESv] at hcv
            exact hcv
          omega
        | some c' =>
          have hc' : c' = c := by
            unfold cvVal at hcv
            rw [hmv] at hcv
            exact hcv
          rcases hdich k hku with hleft | ⟨n', t', hmk, _, hesn', _⟩
          · -- untouched entry: it is the base minStart value
            rw [hmv] at hleft
            have hmsk : ms k = some c' := by
              rw [← hm₀ k hku]
              exact hleft.symm
            have : (ms k).getD 0 = c' := by
              rw [hmsk]
              rfl
            rw [hform, this]
            omega
          · -- previously raised entry: already at least the schedule ES
            rw [hmv] at hmk
            have : c' = n' := Option.some.inj hmk
            have hgn' : getNum ((computeCPM tasks ms).ES k) = es := by
              rw [hESv]
              rfl
            rw [hgn'] at hesn'
            omega
      · -- conservative-EF bound for every declared predecessor
        intro p hp cp hcp
        obtain ⟨tp, esp, hftp, hESp, _, _, _⟩ := hdepfacts p hp
        obtain ⟨cq, hcq, _⟩ := hconsm p hp
        exact le_trans (consEF_mono hmono hftp hESp hcp hcq)
          (hdep_le p hp cq hcq)
    · have hfr : mupd m v n k = m k := by
        unfold mupd
        rw [if_neg hkv]
      rw [hfr]
      exact hdich k hku

/-- The propagation loop preserves `RaiseInv` along the whole recursion. -/
theorem propLoop_raiseInv (tasks : List Task) (hu : UniqueIds tasks)
    (hd : DepsNodup tasks) (hc : ClosedDeps tasks) {r : String → Nat}
    (hr : Ranked tasks r) (hpos : PosDur tasks) (ms : MSMap)
    (hms : NonnegMS ms) (u : String) (m₀ : MSMap)
    (hm₀ : ∀ k, k ≠ u → m₀ k = ms k) :
    ∀ (fuel : Nat), ∀ (l : List String) (m m' : MSMap) (ρ : Nat),
      (∀ v ∈ l, v ∈ idsOf tasks) → (∀ v ∈ l, ρ < r v) → r u ≤ ρ →
      RaiseInv tasks (computeCPM tasks ms).ES u m₀ m →
      propLoop tasks (computeCPM tasks ms).ES fuel l m = some m' →
      RaiseInv tasks (computeCPM tasks ms).ES u m₀ m' := by
  intro fuel
  induction fuel using Nat.strong_induction_on with
  | _ fuel ihf =>
    intro l
    induction l with
    | nil =>
      intro m m' ρ _ _ _ hInv hsome
      rw [propLoop] at hsome
      cases hsome
      exact hInv
    | cons v rest ihl =>
      intro m m' ρ hids hρ hρu hInv hsome
      rw [propLoop] at hsome
      split at hsome
      · next n c heq1 heq2 =>
        by_cases hlt : c < n
        · rw [if_pos hlt] at hsome
          by_cases hfz : fuel = 0
          · rw [dif_pos hfz] at hsome
            cases hsome
          · rw [dif_neg hfz] at hsome
            rcases hnest : propLoop tasks (computeCPM tasks ms).ES (fuel - 1)
                (succsFilter tasks v) (mupd m v n) with _ | m₁
            · rw [hnest] at hsome
              cases hsome
            · rw [hnest] at hsome
              have hvid : v ∈ idsOf tasks := hids v (List.mem_cons_self _ _)
              have hvrank : ρ < r v := hρ v (List.mem_cons_self _ _)
              have hvu : v ≠ u := by
                intro h
                rw [h] at hvrank
                omega
              have hInv1 : RaiseInv tasks (computeCPM tasks ms).ES u m₀
                  (mupd m v n) :=
                raiseInv_update tasks hu hd hc hr hpos ms hms u m₀ hm₀
                  hvid hvu hInv heq1 heq2 hlt
              have hInv2 : RaiseInv tasks (computeCPM tasks ms).ES u m₀ m₁ :=
                ihf (fuel - 1) (by omega) (succsFilter tasks v) (mupd m v n)
                  m₁ (r v) (fun w hw => succsFilter_ids hw)
                  (fun w hw => succsFilter_rank hr hw) (by omega) hInv1 hnest
              exact ihl m₁ m' ρ
                (fun w hw => hids w (List.mem_cons_of_mem _ hw))
                (fun w hw => hρ w (List.mem_cons_of_mem _ hw)) hρu hInv2 hsome
        · rw [if_neg hlt] at hsome
          exact ihl m m' ρ (fun w hw => hids w (List.mem_cons_of_mem _ hw))
            (fun w hw => hρ w (List.mem_cons_of_mem _ hw)) hρu hInv hsome
      · exact ihl m m' ρ (fun w hw => hids w (List.mem_cons_of_mem _ hw))
          (fun w hw => hρ w (List.mem_cons_of_mem _ hw)) hρu hInv hsome

/-- **C6, counterexample.**  Dragging the single task `U` (duration 1, no
predecessors, existing override 5, hence pre-drag ES 5) to tentative start
0 leaves minStart entry 0 for `U`: the resulting entry is *lower* than the
task's pre-drag ES, refuting "no task's resulting minStart is lower than
its pre-drag ES" — the dragged task itself is only clamped by 0 and its
predecessor floor, not by its previous start. -/
theorem claim_C6_counterexample :
    (computeCPM c6tasks c6ms).ES "U" = some (some 5) ∧
    (dragPropagate c6tasks (computeCPM c6tasks c6ms) c6ms 10 "U" 0).map
        (fun m => m "U") = some (some 0) ∧ ((0:Int) < 5) := by
  refine ⟨rfl, ?_, by omega⟩
  have h1 : dragPropagate c6tasks (computeCPM c6tasks c6ms) c6ms 10 "U" 0
      = propagate c6tasks (computeCPM c6tasks c6ms).ES 10
          (mupd c6ms "U" 0) "U" := rfl
  have h2 : propagate c6tasks (computeCPM c6tasks c6ms).ES 10
        (mupd c6ms "U" 0) "U"
      = propLoopS c6tasks (computeCPM c6tasks c6ms).ES 10
          (succsFilter c6tasks "U") (mupd c6ms "U" 0) :=
    (propLoopS_eq c6tasks (computeCPM c6tasks c6ms).ES 10
      (succsFilter c6tasks "U") (mupd c6ms "U" 0)).symm
  rw [h1, h2]
  rfl

/-- **C6** (amended).  After a drag of task `t` to tentative start `s` on a
well-formed acyclic input, every minStart entry *other than the dragged
task's own* is either untouched or was raised to a value at least that
task's pre-drag ES and at least the conservative EF (computed from the
pinned pre-drag map) of each of its declared predecessors; the dragged
task's own entry may drop below its pre-drag ES
(`claim_C6_counterexample`). -/
theorem claim_C6_amended (tasks : List Task) (ms : MSMap) (r : String → Nat)
    (hu : UniqueIds tasks) (hd : DepsNodup tasks) (hc : ClosedDeps tasks)
    (hr : Ranked tasks r) (hpos : PosDur tasks) (hms : NonnegMS ms)
    (t : Task) (ht : t ∈ tasks) (s : Int) (fuel : Nat) :
    ∀ m', dragPropagate tasks (computeCPM tasks ms) ms fuel t.id s = some m' →
      ∀ k, k ≠ t.id →
        m' k = ms k ∨
        ∃ n tk, m' k = some n ∧ byId tasks k = some tk ∧
          getNum ((computeCPM tasks ms).ES k) ≤ n ∧
          ∀ p ∈ tk.deps, ∀ cp,
            consEF tasks (computeCPM tasks ms).ES
              (mupd ms t.id (max (max 0 s) ((t.deps.map (fun d =>
                getNum ((computeCPM tasks ms).EF d))).foldl max 0))) p
              = some cp → cp ≤ n := by
  intro m' hm' k hkt
  rw [dragPropagate_eq tasks ms hu hd hc hr hms ht fuel s] at hm'
  have hInv := propLoop_raiseInv tasks hu hd hc hr hpos ms hms t.id
    (mupd ms t.id (max (max 0 s) ((t.deps.map (fun d =>
      getNum ((computeCPM tasks ms).EF d))).foldl max 0)))
    (fun k hk => by unfold mupd; rw [if_neg hk]) fuel
    (succsFilter tasks t.id)
    (mupd ms t.id (max (max 0 s) ((t.deps.map (fun d =>
      getNum ((computeCPM tasks ms).EF d))).foldl max 0)))
    m' (r t.id) (fun w hw => succsFilter_ids hw)
    (fun w hw => succsFilter_rank hr hw) (le_refl _)
    ⟨fun _ => le_refl _, fun _ _ => Or.inl rfl⟩ hm'
  rcases hInv.2 k hkt with hL | ⟨n, tk, h1, h2, h3, h4⟩
  · left
    rw [hL]
    unfold mupd
    rw [if_neg hkt]
  · right
    exact ⟨n, tk, h1, h2, h3, h4⟩

theorem claim_C6_amended_witness :
    PosDur scenario1 ∧
    (∀ m', dragPropagate scenario1 (computeCPM scenario1 msEmpty) msEmpty 100
        (Task.id ⟨"B", 3, ["A"]⟩) 6 = some m' →
      ∀ k, k ≠ Task.id ⟨"B", 3, ["A"]⟩ →
        m' k = msEmpty k ∨
        ∃ n tk, m' k = some n ∧ byId scenario1 k = some tk ∧
          getNum ((computeCPM scenario1 msEmpty).ES k) ≤ n ∧
          ∀ p ∈ tk.deps, ∀ cp,
            consEF scenario1 (computeCPM scenario1 msEmpty).ES
              (mupd msEmpty (Task.id ⟨"B", 3, ["A"]⟩)
                (max (max 0 6) (((Task.deps ⟨"B", 3, ["A"]⟩).map (fun d =>
                  getNum ((computeCPM scenario1 msEmpty).EF d))).foldl max 0)))
              p = some cp → cp ≤ n) :=
  ⟨by decide,
   claim_C6_amended scenario1 msEmpty rank1 (by decide) (by decide)
     (by decide) (by decide) (by decide) msEmpty_nonneg ⟨"B", 3, ["A"]⟩
     (by decide) 6 100⟩

end CPM
